import Mathlib

/-!
Verification development for the gc_lang compiler front end
(lexer → Pratt parser with indentation-governed blocks → lowering to the
flat mid-level IR).  Every definition below is a shallow embedding of the
corresponding Rust item, named after it where Lean allows.
-/

set_option maxRecDepth 10000

/-! ## Lexer (src/lexer.rs)

`Keyword` and `Token` mirror the two Logos-derived enums.  Constructor
names that clash with Lean keywords are prefixed with `k`.
-/

/-- Mirrors `lexer::Keyword`. -/
inductive Keyword where
  | klet | kmut | kset | kfunc | kproc | ktype | kdisown | kscope
  | kif | kelse | kcond | kand | kor | kreturn
deriving DecidableEq, Repr

/-- Mirrors `lexer::Token`.  `number` and `string` carry the raw matched
slice, exactly as the Rust token holds `&'a str` (the string slice still
includes its quotes). -/
inductive Token where
  | keyword (k : Keyword)
  | word (s : String)
  | number (s : String)
  | string (s : String)
  | curlyStart | curlyEnd | squareStart | squareEnd | parenStart | parenEnd
  | comma | tilde | assign | semicolon | fatArrow
  | add | sub | mul | div | and | or | xor | not
  | equal | notEqual | less | lessEqual | greater | greaterEqual
  | fieldIndex
  | newline
  | whitespace (n : Nat)
  | eof
deriving DecidableEq, Repr

def isHorizWs (c : Char) : Bool := c = ' ' || c = '\t'
def isNlChar (c : Char) : Bool := c = '\n' || c = '\r'
def isIdentStart (c : Char) : Bool := c.isAlpha || c = '_'
def isIdentChar (c : Char) : Bool := c.isAlphanum || c = '_'
def isNumChar (c : Char) : Bool := c.isDigit || c = '_'

/-- The reserved words of §3; anything else lexes as `Token.word`. -/
def keywordOf (s : String) : Option Keyword :=
  if s = "let" then some .klet
  else if s = "mut" then some .kmut
  else if s = "set" then some .kset
  else if s = "func" then some .kfunc
  else if s = "proc" then some .kproc
  else if s = "type" then some .ktype
  else if s = "disown" then some .kdisown
  else if s = "scope" then some .kscope
  else if s = "if" then some .kif
  else if s = "else" then some .kelse
  else if s = "cond" then some .kcond
  else if s = "and" then some .kand
  else if s = "or" then some .kor
  else if s = "return" then some .kreturn
  else none

/-- One maximal-munch step over the punctuation, word, number and string
rules (the caller has already handled the whitespace-led rules, so the
head character here is not a space or tab).  Returns the token and the
remaining characters, or `none` on an unrecognized character /
unterminated string — the Rust lexer aborts there. -/
def lexOneCore (cs : List Char) : Option (Token × List Char) :=
  match cs with
  | [] => none
  | c :: rest =>
    if isIdentStart c then
      let w := cs.takeWhile isIdentChar
      let r := cs.dropWhile isIdentChar
      let s := String.mk w
      match keywordOf s with
      | some k => some (.keyword k, r)
      | none => some (.word s, r)
    else if c.isDigit then
      some (.number (String.mk (cs.takeWhile isNumChar)), cs.dropWhile isNumChar)
    else if c = '"' then
      let content := rest.takeWhile (fun c => c ≠ '"')
      match rest.dropWhile (fun c => c ≠ '"') with
      | '"' :: r2 => some (.string (String.mk ('"' :: content ++ ['"'])), r2)
      | _ => none
    else
      match cs with
      | '=' :: '=' :: r => some (.equal, r)
      | '=' :: '>' :: r => some (.fatArrow, r)
      | '!' :: '=' :: r => some (.notEqual, r)
      | '<' :: '=' :: r => some (.lessEqual, r)
      | '>' :: '=' :: r => some (.greaterEqual, r)
      -- `,[ \t\r\n]+` merges a comma with any following blanks
      | ',' :: r => some (.comma, r.dropWhile (fun c => isHorizWs c || isNlChar c))
      | '{' :: r => some (.curlyStart, r)
      | '}' :: r => some (.curlyEnd, r)
      | '[' :: r => some (.squareStart, r)
      | ']' :: r => some (.squareEnd, r)
      | '(' :: r => some (.parenStart, r)
      | ')' :: r => some (.parenEnd, r)
      | '~' :: r => some (.tilde, r)
      | '=' :: r => some (.assign, r)
      | ';' :: r => some (.semicolon, r)
      | '+' :: r => some (.add, r)
      | '-' :: r => some (.sub, r)
      | '*' :: r => some (.mul, r)
      | '/' :: r => some (.div, r)
      | '&' :: r => some (.and, r)
      | '|' :: r => some (.or, r)
      | '^' :: r => some (.xor, r)
      | '!' :: r => some (.not, r)
      | '<' :: r => some (.less, r)
      | '>' :: r => some (.greater, r)
      | '.' :: r => some (.fieldIndex, r)
      | _ => none

/-- One lexing step.  The leading horizontal-whitespace run decides between
the comment skip `[ \t]*//[^\n]*`, the newline rule `[ \t]*[\n\r]+` and the
whitespace rule `[ \t]+`, exactly as maximal munch does for the Logos
rules; `none` in the first component is a skipped match (comment). -/
def lexOne (cs : List Char) : Option (Option Token × List Char) :=
  let w := cs.takeWhile isHorizWs
  let rest := cs.dropWhile isHorizWs
  match rest with
  | '/' :: '/' :: r => some (none, r.dropWhile (fun c => c ≠ '\n'))
  | c :: _ =>
    if isNlChar c then
      some (some .newline, rest.dropWhile isNlChar)
    else if w.length > 0 then
      some (some (.whitespace w.length), rest)
    else
      (lexOneCore cs).map (fun (t, r) => (some t, r))
  | [] =>
    if w.length > 0 then some (some (.whitespace w.length), []) else none

/-- Runs the lexer to the end of input.  `fuel` only bounds the number of
steps; each `lexOne` consumes at least one character, so
`cs.length + 1` steps always reach the end. -/
def lexAll : Nat → List Char → Option (List Token)
  | 0, _ => none
  | _, [] => some []
  | fuel + 1, cs =>
    match lexOne cs with
    | none => none
    | some (ot, rest) =>
      (lexAll fuel rest).map (fun ts =>
        match ot with
        | some t => t :: ts
        | none => ts)

/-- Mirrors `lex(source) → token stream` (§6): the whole token list, or
`none` when the lexer aborts on unrecognized input. -/
def lex (s : String) : Option (List Token) :=
  lexAll (s.length + 1) s.toList

/-! ## Parse tree (src/parser/tree.rs)

`Name`/`Index` are interned-string indices (`main.rs` wraps a `usize`);
here they are plain `Nat`.  The parse-tree `Stmt`/`Expr`/`Block` are
prefixed `P` to keep them apart from the mid-IR types of the same Rust
names.
-/

/-- Mirrors `parser::Operator`. -/
inductive Operator where
  | Add | Sub | Mul | Div
  | And | Or | Xor
  | Equal | NotEqual | Less | LessEqual | Greater | GreaterEqual
  | LogicAnd | LogicOr
  | Apply
deriving DecidableEq, Repr

/-- Mirrors `parser::Pattern` (structural form; the name-agnostic
equality used for dispatch is `pattern_beq` below). -/
inductive Pattern where
  | Group (items : List Pattern)
  | Name (n : Nat)
  | Number (n : Int)
  | None
deriving Repr

mutual
/-- Mirrors the Rust `impl PartialEq for Pattern`: `Name` binders compare
equal regardless of contents; groups compare elementwise. -/
def pattern_beq : Pattern → Pattern → Bool
  | .Group l, .Group r => pattern_list_beq l r
  | .Name _, .Name _ => true
  | .Number l, .Number r => l == r
  | .None, .None => true
  | _, _ => false

def pattern_list_beq : List Pattern → List Pattern → Bool
  | [], [] => true
  | l :: ls, r :: rs => pattern_beq l r && pattern_list_beq ls rs
  | _, _ => false
end

mutual
/-- Mirrors `parser::Stmt`. -/
inductive PStmt where
  | FunctionDef (is_proc : Bool) (name : Nat) (pattern : Pattern) (block : PBlock)
  | VarDef (mutable : Bool) (name : Nat) (data : Option PExpr)
  | VarSet (name : Nat) (data : PExpr)
  | IfElse (condition : PExpr) (block : PBlock) (dflt : Option PBlock)
  | Conditional (conditions : List PExpr) (actions : List PConditionalAction)
  | Scope (block : PBlock)
  | Disown (e : PExpr)
  | Return (e : Option PExpr)
  | Expr (e : PExpr)

/-- Mirrors `parser::Expr`. -/
inductive PExpr where
  | Operation (left right : PExpr) (op : Operator)
  | Field (left : PExpr) (name : Nat)
  | Group (items : List PExpr)
  | Var (name : Nat)
  | Number (n : Int)
  | String (s : Nat)
  | Borrow (inner : PExpr)
  | Deref (inner : PExpr)
  | None

/-- Mirrors `parser::ConditionalAction`. -/
inductive PConditionalAction where
  | Expr (e : PExpr)
  | Scope (b : PBlock)

/-- Mirrors `parser::Block`. -/
inductive PBlock where
  | mk (stmts : List PStmt)
end

/-! ## Parser state and token-level helpers (src/parser/mod.rs)

The Rust parser wraps a 2-token `LookaheadLexer`; peeking past the end of
input yields `Token::EOF` forever.  Here the already-lexed token list is
the stream, the indent stack has its top at the head, and the interner is
an insertion-ordered list of strings.  Errors are the parser's message
strings (source positions are not modelled; no claim mentions them).
-/

structure PState where
  toks : List Token
  ws_stack : List Nat
  interner : List String
deriving Repr

/-- Parse results: `Parser` methods mutate `self` and return
`Result<T, SimpleError>`; here they return the value with the updated
state, or the error message. -/
abbrev PR (α : Type) := Except String (α × PState)

def peek (st : PState) (i : Nat) : Token := st.toks.getD i .eof

def next (st : PState) : Token × PState :=
  match st.toks with
  | [] => (.eof, st)
  | t :: r => (t, { st with toks := r })

def skip_ws_toks : List Token → List Token
  | .whitespace _ :: r => skip_ws_toks r
  | ts => ts

/-- Mirrors `Parser::skip_ws`. -/
def skip_ws (st : PState) : PState := { st with toks := skip_ws_toks st.toks }

def skip_nl_toks : List Token → List Token
  | .newline :: r => skip_nl_toks r
  | ts => ts

/-- Mirrors `Parser::skip_nl`. -/
def skip_nl (st : PState) : PState := { st with toks := skip_nl_toks st.toks }

/-- Mirrors `Parser::ws`: requires one whitespace token, then skips any
further whitespace. -/
def ws (st : PState) : Except String PState :=
  match next st with
  | (.whitespace _, st') => .ok (skip_ws st')
  | _ => .error "Expected whitespace"

/-- Mirrors `Parser::eol`: a newline, `;` or EOF terminates a statement;
trailing newlines are collapsed. -/
def eol (st : PState) : Except String PState :=
  match peek st 0 with
  | .newline | .semicolon | .eof => .ok (skip_nl (next st).2)
  | _ => .error "Expected `;` or EOL"

/-- Mirrors `Parser::indent`. -/
def indent (st : PState) : Except String (Nat × PState) :=
  match next st with
  | (.whitespace count, st') => .ok (count, st')
  | _ => .error "Expected indent"

/-- Mirrors `Parser::try_indent`; the caller only tests success, and on
failure nothing is consumed. -/
def try_indent (st : PState) (amt : Nat) : Bool × PState :=
  match peek st 0 with
  | .whitespace count => if count = amt then (true, (next st).2) else (false, st)
  | _ => (false, st)

/-- Mirrors `Parser::match_token`. -/
def match_token (st : PState) (t : Token) : Except String PState :=
  let (tok, st') := next st
  if tok = t then .ok st' else .error "Unexpected token"

/-- Mirrors `Parser::try_match`. -/
def try_match (st : PState) (t : Token) : Bool × PState :=
  if peek st 0 = t then (true, (next st).2) else (false, st)

/-- Mirrors `StringInterner::intern` (insertion-ordered, append-only). -/
def intern (st : PState) (w : String) : Nat × PState :=
  match st.interner.findIdx? (fun s => s = w) with
  | some i => (i, st)
  | none => (st.interner.length, { st with interner := st.interner ++ [w] })

/-- Mirrors `Parser::intern_string`: drops the surrounding quotes of the
raw string slice before interning. -/
def intern_string (st : PState) (s : String) : Nat × PState :=
  intern st (String.mk ((s.toList.drop 1).dropLast))

/-- Mirrors `Parser::word`. -/
def word (st : PState) : PR Nat :=
  match next st with
  | (.word w, st') => .ok (intern st' w)
  | _ => .error "Expected word"

def I64_MAX : Int := 2 ^ 63 - 1

def digitsVal (cs : List Char) : Nat :=
  cs.foldl (fun acc c => acc * 10 + (c.toNat - '0'.toNat)) 0

/-- Rust's `str::parse::<i64>` restricted to the lexer's number tokens
(`[0-9][0-9_]*`): it accepts a non-empty all-digit string whose value
fits in a signed 64-bit integer, and rejects anything else — in
particular any string containing an underscore. -/
def rust_parse_i64 (s : String) : Option Int :=
  let cs := s.toList
  if cs ≠ [] ∧ cs.all Char.isDigit then
    let n := digitsVal cs
    if (n : Int) ≤ I64_MAX then some (n : Int) else none
  else none

/-- Mirrors `Parser::parse_num`. -/
def parse_num (st : PState) (num_str : String) : PR Int :=
  match rust_parse_i64 num_str with
  | some n => .ok (n, st)
  | none => .error "Error parsing number"

/-- Mirrors `Parser::is_token_expr_start`. -/
def is_token_expr_start (token : Token) : Bool :=
  match token with
  | .word _ | .number _ | .string _ | .mul | .and | .parenStart => true
  | _ => false

/-- Mirrors `Parser::infix_prec` (left and right binding powers). -/
def infix_prec (token : Token) : Option (Nat × Nat) :=
  match token with
  | .keyword .kand | .keyword .kor => some (0, 1)
  | .equal | .notEqual | .less | .lessEqual | .greater | .greaterEqual => some (2, 3)
  | .whitespace _ => some (5, 4)
  | .add | .sub => some (6, 7)
  | .mul | .div => some (8, 9)
  | .and | .or | .xor => some (10, 11)
  | _ => none

/-- Mirrors `Parser::infix_op`.  The Rust function panics on any other
token; that case is unreachable because callers consult `infix_prec`
first, so an arbitrary operator stands in for it here. -/
def infix_op (token : Token) : Operator :=
  match token with
  | .equal => .Equal
  | .notEqual => .NotEqual
  | .less => .Less
  | .lessEqual => .LessEqual
  | .greater => .Greater
  | .greaterEqual => .GreaterEqual
  | .add => .Add
  | .sub => .Sub
  | .mul => .Mul
  | .div => .Div
  | .and => .And
  | .or => .Or
  | .xor => .Xor
  | .whitespace _ => .Apply
  | .keyword .kand => .LogicAnd
  | .keyword .kor => .LogicOr
  | _ => .Apply

/-- Mirrors `Parser::postfix_prec`: only `.` has a postfix entry. -/
def postfix_prec (token : Token) : Option (Nat × Nat) :=
  match token with
  | .fieldIndex => some (8, 9)
  | _ => none

def push_ws (st : PState) (n : Nat) : PState := { st with ws_stack := n :: st.ws_stack }

def pop_ws (st : PState) : PState := { st with ws_stack := st.ws_stack.tail }

def outOfFuel {α : Type} : PR α := .error "Internal: out of fuel"

/-- Mirrors `Parser::parse_expr_terminal`: number, `None`, variable, or
string. -/
def parse_expr_terminal (st : PState) : Except String (PExpr × PState) :=
  match next st with
  | (.number num_str, st) =>
    match parse_num st num_str with
    | .ok (n, st) => .ok (.Number n, st)
    | .error e => .error e
  | (.word w, st) =>
    if w = "None" then .ok (.None, st)
    else
      let (n, st) := intern st w
      .ok (.Var n, st)
  | (.string s, st) =>
    let (i, st) := intern_string st s
    .ok (.String i, st)
  | _ => .error "Expected `expr`"

/-! ## The parser proper (src/parser/mod.rs)

Each `parse_*` method is embedded with an explicit `fuel` argument
(structural recursion on `fuel`); a concrete parse is run with more fuel
than it can consume.  Internal `loop`s become the `_loop` helpers.
-/

mutual

/-- Mirrors `Parser::parse_stmt` (statement dispatch of §4.3). -/
def parse_stmt : Nat → PState → Except String (PStmt × PState)
  | 0, _ => outOfFuel
  | fuel + 1, st =>
    let st := skip_nl st
    match peek st 0 with
    | .keyword .kset => parse_var_set fuel st
    | .keyword .klet => parse_var_def fuel st
    | .keyword .kproc | .keyword .kfunc => parse_function fuel st
    | .keyword .kscope => parse_scope fuel st
    | .keyword .kdisown => parse_disown fuel st
    | .keyword .kif => parse_if_else fuel st
    | .keyword .kcond => parse_cond fuel st
    | .keyword .kreturn => parse_return fuel st
    | .whitespace _ => .error "Internal error: Unexpected indent"
    | _ => do
      let (e, st) ← parse_expr fuel 0 st
      let st := skip_ws st
      let st ← eol st
      .ok (.Expr e, st)

/-- Mirrors `Parser::parse_return`. -/
def parse_return : Nat → PState → Except String (PStmt × PState)
  | 0, _ => outOfFuel
  | fuel + 1, st => do
    let st ← match_token st (.keyword .kreturn)
    let st ← ws st
    match try_match st .newline with
    | (true, st) => .ok (.Return Option.none, st)
    | (false, st) => do
      let (e, st) ← parse_expr fuel 0 st
      .ok (.Return (some e), st)

/-- Mirrors `Parser::parse_cond` up to its case loop. -/
def parse_cond : Nat → PState → Except String (PStmt × PState)
  | 0, _ => outOfFuel
  | fuel + 1, st => do
    let st ← match_token st (.keyword .kcond)
    let st ← match_token st .newline
    let st := skip_nl st
    let current_indent := st.ws_stack.headD 0
    match peek st 0 with
    | .whitespace amt =>
      if amt ≤ current_indent then
        .error "Expected indented block"
      else do
        let st := push_ws st amt
        let ((conditions, actions), st) ← parse_cond_loop fuel amt [] [] st
        let st := pop_ws st
        .ok (.Conditional conditions actions, st)
    | _ => .error "Expected indent"

/-- The `loop` inside `Parser::parse_cond`: one iteration per case line at
the recorded indent. -/
def parse_cond_loop : Nat → Nat → List PExpr → List PConditionalAction → PState →
    Except String ((List PExpr × List PConditionalAction) × PState)
  | 0, _, _, _, _ => outOfFuel
  | fuel + 1, indentv, conditions, actions, st =>
    match peek st 0 with
    | .whitespace amt =>
      if amt < indentv then .ok ((conditions, actions), st)
      else if amt > indentv then .error "Unexpected indent"
      else do
        let st := (next st).2
        let (c, st) ← parse_expr fuel 0 st
        let st := skip_ws st
        let st ← match_token st .fatArrow
        let st := skip_ws st
        match peek st 0 with
        | .keyword .kscope => do
          let st := (next st).2
          let st ← match_token st .newline
          let st := skip_nl st
          let (b, st) ← parse_block fuel st
          parse_cond_loop fuel indentv (conditions ++ [c]) (actions ++ [.Scope b]) st
        | _ => do
          let (e, st) ← parse_expr fuel 0 st
          let st := skip_nl st
          parse_cond_loop fuel indentv (conditions ++ [c]) (actions ++ [.Expr e]) st
    | _ => .ok ((conditions, actions), st)

/-- Mirrors `Parser::parse_if_else`, including the two-token lookahead
`(Whitespace(amt), Keyword(Else))` that decides the else branch. -/
def parse_if_else : Nat → PState → Except String (PStmt × PState)
  | 0, _ => outOfFuel
  | fuel + 1, st => do
    let st ← match_token st (.keyword .kif)
    let st ← ws st
    let (condition, st) ← parse_expr fuel 0 st
    let st ← match_token st .newline
    let st := skip_nl st
    let (block, st) ← parse_block fuel st
    let current_indent := st.ws_stack.headD 0
    match peek st 0, peek st 1 with
    | .whitespace amt, .keyword .kelse =>
      if amt = current_indent then do
        let st := (next st).2          -- self.indent()?
        let st := (next st).2          -- self.next() consumes `else`
        let st ← match_token st .newline
        let st := skip_nl st
        let (dflt, st) ← parse_block fuel st
        .ok (.IfElse condition block (some dflt), st)
      else
        .ok (.IfElse condition block Option.none, st)
    | _, _ => .ok (.IfElse condition block Option.none, st)

/-- Mirrors `Parser::parse_disown`. -/
def parse_disown : Nat → PState → Except String (PStmt × PState)
  | 0, _ => outOfFuel
  | fuel + 1, st => do
    let st ← match_token st (.keyword .kdisown)
    let st ← ws st
    let (e, st) ← parse_expr fuel 0 st
    let st ← eol st
    .ok (.Disown e, st)

/-- Mirrors `Parser::parse_scope`. -/
def parse_scope : Nat → PState → Except String (PStmt × PState)
  | 0, _ => outOfFuel
  | fuel + 1, st => do
    let st ← match_token st (.keyword .kscope)
    let st := skip_ws st
    let st ← match_token st .newline
    let st := skip_nl st
    let (b, st) ← parse_block fuel st
    .ok (.Scope b, st)

/-- Mirrors `Parser::parse_var_def`. -/
def parse_var_def : Nat → PState → Except String (PStmt × PState)
  | 0, _ => outOfFuel
  | fuel + 1, st => do
    let st ← match_token st (.keyword .klet)
    let st ← ws st
    let (mutable, st) := try_match st (.keyword .kmut)
    let st ← if mutable then ws st else .ok st
    let (name, st) ← word st
    let st := skip_ws st
    match try_match st .assign with
    | (true, st) => do
      let st := skip_ws st
      let (data, st) ← parse_expr fuel 0 st
      let st ← eol st
      .ok (.VarDef mutable name (some data), st)
    | (false, st) => do
      let st ← eol st
      .ok (.VarDef mutable name Option.none, st)

/-- Mirrors `Parser::parse_var_set`. -/
def parse_var_set : Nat → PState → Except String (PStmt × PState)
  | 0, _ => outOfFuel
  | fuel + 1, st => do
    let st ← match_token st (.keyword .kset)
    let st ← ws st
    let (name, st) ← word st
    let st := skip_ws st
    let st ← match_token st .assign
    let st := skip_ws st
    let (data, st) ← parse_expr fuel 0 st
    let st ← eol st
    .ok (.VarSet name data, st)

/-- Mirrors `Parser::parse_function` (`func` / `proc` heads). -/
def parse_function : Nat → PState → Except String (PStmt × PState)
  | 0, _ => outOfFuel
  | fuel + 1, st => do
    let (tok, st) := next st
    let is_proc ←
      match tok with
      | .keyword .kproc => .ok true
      | .keyword .kfunc => .ok false
      | _ => .error "Internal: Function keyword"
    let st ← ws st
    let (name, st) ← word st
    let st := skip_ws st
    let (pattern, st) ← parse_pattern fuel st
    let st ← match_token st .newline
    let st := skip_nl st
    let (block, st) ← parse_block fuel st
    .ok (.FunctionDef is_proc name pattern block, st)

/-- Mirrors `Parser::parse_block` (indentation-governed block, §4.3). -/
def parse_block : Nat → PState → Except String (PBlock × PState)
  | 0, _ => outOfFuel
  | fuel + 1, st => parse_block_loop fuel [] 0 st

/-- The `while` loop inside `Parser::parse_block`; `indentv = 0` means the
block indent has not been established yet. -/
def parse_block_loop : Nat → List PStmt → Nat → PState → Except String (PBlock × PState)
  | 0, _, _, _ => outOfFuel
  | fuel + 1, stmts, indentv, st =>
    if peek st 0 = .eof then
      .ok (.mk stmts, pop_ws st)
    else
      let st := skip_nl st
      if indentv = 0 then
        let last_indent := st.ws_stack.headD 0
        match peek st 0 with
        | .whitespace amt =>
          if amt ≤ last_indent then
            .error "Expected indented block"
          else do
            let st := (next st).2
            let st := push_ws st amt
            let (s, st) ← parse_stmt fuel st
            parse_block_loop fuel (stmts ++ [s]) amt st
        | _ => .error "Expected indented block"
      else
        match try_indent st indentv with
        | (true, st) => do
          let (s, st) ← parse_stmt fuel st
          parse_block_loop fuel (stmts ++ [s]) indentv st
        | (false, _) => .ok (.mk stmts, pop_ws st)

/-- Mirrors `Parser::parse_expr` (Pratt parser with precedence floor
`min_prec`): prefix phase, then the infix loop, then the postfix loop. -/
def parse_expr : Nat → Nat → PState → Except String (PExpr × PState)
  | 0, _, _ => outOfFuel
  | fuel + 1, min_prec, st => do
    let (ret, st) ←
      match peek st 0 with
      | .mul => do
        let st := (next st).2
        let (inner, st) ← parse_expr fuel min_prec st
        .ok ((.Deref inner : PExpr), st)
      | .and => do
        let st := (next st).2
        let (inner, st) ← parse_expr fuel min_prec st
        .ok ((.Borrow inner : PExpr), st)
      | .parenStart =>
        parse_paren_loop fuel Option.none (next st).2
      | _ => parse_expr_terminal st
    let (ret, st) ← parse_expr_infix_loop fuel min_prec ret st
    parse_expr_postfix_loop fuel min_prec ret st

/-- The parenthesized-form `loop` of `Parser::parse_expr`: empty group,
unwrapped singleton, or comma-separated tuple. -/
def parse_paren_loop : Nat → Option PExpr → PState → Except String (PExpr × PState)
  | 0, _, _ => outOfFuel
  | fuel + 1, ret, st =>
    let st := skip_ws st
    match peek st 0 with
    | .parenEnd =>
      .ok (ret.getD (.Group []), (next st).2)
    | _ => do
      let st := skip_ws st
      let (e, st) ← parse_expr fuel 0 st
      let ret : Option PExpr :=
        match ret with
        | some (.Group items) => some (.Group (items ++ [e]))
        | some r => some (.Group [r, e])
        | Option.none => some e
      match next st with
      | (.comma, st) => parse_paren_loop fuel ret st
      | (.parenEnd, st) => .ok (ret.getD (.Group []), st)
      | _ => .error "Expected `,` or `)` in group"

/-- The infix loop of `Parser::parse_expr`.  A whitespace token peeked
ahead of an infix operator is skipped first (so breaking on precedence
leaves it consumed); whitespace ahead of an expression starter is itself
the `Apply` operator; otherwise whitespace ends the expression. -/
def parse_expr_infix_loop : Nat → Nat → PExpr → PState → Except String (PExpr × PState)
  | 0, _, _, _ => outOfFuel
  | fuel + 1, min_prec, ret, st =>
    let step : Option ((Nat × Nat) × PState) :=
      match peek st 0 with
      | .whitespace _ =>
        match infix_prec (peek st 1) with
        | some p => some (p, skip_ws st)
        | Option.none =>
          if is_token_expr_start (peek st 1) then
            some ((5, 4), st)
          else
            Option.none
      | t =>
        match infix_prec t with
        | some p => some (p, st)
        | Option.none => Option.none
    match step with
    | Option.none => .ok (ret, st)
    | some ((l_prec, r_prec), st') =>
      if l_prec < min_prec then
        .ok (ret, st')
      else do
        let (tok, st2) := next st'
        let op := infix_op tok
        let st2 := skip_ws st2
        let (right, st3) ← parse_expr fuel r_prec st2
        parse_expr_infix_loop fuel min_prec (.Operation ret right op) st3

/-- The postfix loop of `Parser::parse_expr`; only `.` has a postfix
entry, producing `Field`. -/
def parse_expr_postfix_loop : Nat → Nat → PExpr → PState → Except String (PExpr × PState)
  | 0, _, _, _ => outOfFuel
  | fuel + 1, min_prec, ret, st =>
    match postfix_prec (peek st 0) with
    | Option.none => .ok (ret, st)
    | some (l_prec, _r_prec) =>
      if l_prec < min_prec then
        .ok (ret, st)
      else
        match next st with
        | (.fieldIndex, st) => do
          let (name, st) ← word st
          parse_expr_postfix_loop fuel min_prec (.Field ret name) st
        | _ =>
          -- `Parser::postfix_op` panics here; unreachable, as `.` is the
          -- only token with a postfix precedence.
          .error "Internal: Postfix operator"

/-- Mirrors `Parser::parse_pattern`. -/
def parse_pattern : Nat → PState → Except String (Pattern × PState)
  | 0, _ => outOfFuel
  | fuel + 1, st =>
    match next st with
    | (.parenStart, st) => parse_pattern_loop fuel [] st
    | (.word w, st) =>
      if w = "None" then .ok (.None, st)
      else
        let (n, st) := intern st w
        .ok (.Name n, st)
    | (.number n, st) => do
      let (v, st) ← parse_num st n
      .ok (.Number v, st)
    | _ => .error "Unexpected token in pattern"

/-- The group `loop` inside `Parser::parse_pattern`. -/
def parse_pattern_loop : Nat → List Pattern → PState → Except String (Pattern × PState)
  | 0, _, _ => outOfFuel
  | fuel + 1, items, st =>
    let st := skip_ws st
    match peek st 0 with
    | .parenEnd => .ok (.Group items, (next st).2)
    | _ => do
      let (p, st) ← parse_pattern fuel st
      let st := skip_ws st
      match next st with
      | (.parenEnd, st) => .ok (.Group (items ++ [p]), st)
      | (.comma, st) => parse_pattern_loop fuel (items ++ [p]) st
      | _ => .error "Expected `)` or `,` in pattern"

end

/-- The `while` loop of `Parser::parse_file`. -/
def parse_file_loop : Nat → List PStmt → PState → Except String (List PStmt × PState)
  | 0, _, _ => outOfFuel
  | fuel + 1, stmts, st =>
    if peek st 0 = .eof then
      .ok (stmts, st)
    else do
      let (s, st) ← parse_stmt fuel st
      parse_file_loop fuel (stmts ++ [s]) st

/-- Mirrors `Parser::parse_file`: pushes indent level 0 and parses
statements until EOF. -/
def parse_file (fuel : Nat) (st : PState) : Except String (List PStmt × PState) :=
  parse_file_loop fuel [] (push_ws st 0)

/-- Mirrors `Parser::new` on a source string. -/
def parser_new (toks : List Token) : PState :=
  { toks, ws_stack := [], interner := [] }

/-- End-to-end `parse_file(source)` (§6), projected to the statement
list.  The fuel is far more than a parse of the token list can consume
(each recursive call and loop iteration costs one unit and the parser
either consumes a token or fails within a bounded number of steps). -/
def parseFileStmts (s : String) : Except String (List PStmt) :=
  match lex s with
  | Option.none => .error "Lex error"
  | some toks =>
    match parse_file (20 * toks.length + 100) (parser_new toks) with
    | .ok (stmts, _) => .ok stmts
    | .error e => .error e

/-- End-to-end single-expression parse with floor 0, projected to the
expression (used by the precedence scenarios of §8). -/
def parseExprStr (s : String) : Except String PExpr :=
  match lex s with
  | Option.none => .error "Lex error"
  | some toks =>
    match parse_expr (20 * toks.length + 100) 0 (parser_new toks) with
    | .ok (e, _) => .ok e
    | .error e => .error e

/-! ## Parser-level helper lemmas -/

theorem skip_nl_toks_cons (t : Token) (r : List Token) (h : t ≠ Token.newline) :
    skip_nl_toks (t :: r) = t :: r := by
  cases t <;> simp_all [skip_nl_toks]

theorem skip_nl_of_head_ne_newline (st : PState)
    (h : peek st 0 ≠ Token.newline) : skip_nl st = st := by
  obtain ⟨toks, wss, intr⟩ := st
  cases toks with
  | nil => rfl
  | cons t r =>
    have ht : t ≠ Token.newline := by simpa [peek] using h
    simp [skip_nl, skip_nl_toks_cons _ _ ht]

/-- Tokens other than whitespace, newline and EOF, as seen by the opening
of `Parser::parse_block`. -/
def block_head_other : Token → Bool
  | .whitespace _ | .newline | .eof => false
  | _ => true

/-! ## Claims about the parser -/

/-- C1.  The spec's scenario `if x\n    set y = 1\nelse\n    set y = 2`
does NOT parse at top level: the else-detection looks ahead for
`(Whitespace(parent), Keyword(Else))`, but at parent indent 0 a
zero-width whitespace token never exists, so the `else` line is left in
the stream and the statement loop fails on it with "Expected `expr`".
(Nested one level deep, where a `Whitespace(parent)` token does exist,
the same if/else does parse to one `IfElse` with a `VarSet` in each arm.) -/
theorem C1_if_else_toplevel :
    parseFileStmts "if x\n    set y = 1\nelse\n    set y = 2" =
      .error "Expected `expr`" :=
  rfl

/-- C2.  Underscore separators are NOT removed before numeric parsing:
`parse_num` hands the raw slice `1_000` to `str::parse::<i64>`, which
rejects underscores, so the parse fails with "Error parsing number"
even though the value is far below the signed 64-bit bound; the
underscore-free `1000` parses to `Number 1000`. -/
theorem C2_underscore_number :
    parseFileStmts "1_000" = .error "Error parsing number" ∧
    parseFileStmts "1000" = .ok [.Expr (.Number 1000)] ∧
    rust_parse_i64 "1_000" = Option.none ∧
    rust_parse_i64 "1000" = some 1000 :=
  ⟨rfl, rfl, rfl, rfl⟩

/-- C3 counterexample.  At end of input `parse_block` returns an EMPTY
block successfully instead of raising "Expected indented block": the
source `scope\n` parses to a `Scope` holding an empty `Block`, so a
successfully parsed block is not always nonempty and the no-whitespace
case does not always fail. -/
theorem C3_counterexample :
    parseFileStmts "scope\n" = .ok [.Scope (.mk [])] ∧
    (PBlock.mk []) = .mk [] :=
  ⟨rfl, rfl⟩

/-- C3 amended.  When `parse_block` starts at a whitespace token whose
width is at most the enclosing indent, or at any token other than
whitespace, newline or EOF, it fails with "Expected indented block";
but when it starts at EOF the `while` loop never runs and it returns an
empty block (popping the indent stack). -/
theorem C3_expected_indented_block (st : PState) (fuel : Nat) :
    (∀ n, peek st 0 = .whitespace n → n ≤ st.ws_stack.headD 0 →
      parse_block (fuel + 2) st = .error "Expected indented block") ∧
    (block_head_other (peek st 0) = true →
      parse_block (fuel + 2) st = .error "Expected indented block") ∧
    (peek st 0 = .eof →
      parse_block (fuel + 2) st = .ok (.mk [], pop_ws st)) := by
  refine ⟨fun n hn hle => ?_, fun ho => ?_, fun he => ?_⟩
  · have hne : peek st 0 ≠ Token.eof := by simp [hn]
    have hnl : skip_nl st = st := skip_nl_of_head_ne_newline st (by simp [hn])
    show parse_block_loop (fuel + 1) [] 0 st = _
    rw [parse_block_loop, if_neg hne, hnl]
    simp only [hn, if_pos rfl]
    simp [hle]
    intro hlt
    rw [List.headD_eq_head?] at hle
    omega
  · have hne : peek st 0 ≠ Token.eof := by
      intro h; rw [h] at ho; simp [block_head_other] at ho
    have hnn : peek st 0 ≠ Token.newline := by
      intro h; rw [h] at ho; simp [block_head_other] at ho
    have hnl : skip_nl st = st := skip_nl_of_head_ne_newline st hnn
    show parse_block_loop (fuel + 1) [] 0 st = _
    rw [parse_block_loop, if_neg hne, hnl]
    generalize hp : peek st 0 = t at ho hne hnn
    cases t <;> simp_all [block_head_other]
  · show parse_block_loop (fuel + 1) [] 0 st = _
    rw [parse_block_loop, if_pos he]

/-- C3 witness: a concrete state whose head is `Whitespace 2` under an
enclosing indent of 4 is rejected with the documented message. -/
theorem C3_expected_indented_block_witness :
    parse_block 2 ⟨[.whitespace 2, .keyword .kreturn], [4], []⟩ =
      .error "Expected indented block" :=
  (C3_expected_indented_block ⟨[.whitespace 2, .keyword .kreturn], [4], []⟩ 0).1
    2 rfl (by norm_num)

/-- C7 counterexample.  `return` directly followed by its end of line is
NOT parsed as `Return(None)`: `parse_return` first demands a whitespace
token, and the lexer folds horizontal whitespace preceding a newline into
the `Newline` token itself, so both `return\n` and `return \n` die with
"Expected whitespace".  `return EXPR` also consumes no terminator of its
own: a following `;` is left in the stream and makes the next statement
parse fail. -/
theorem C7_counterexample :
    parseFileStmts "return\n" = .error "Expected whitespace" ∧
    parseFileStmts "return x;" = .error "Expected `expr`" :=
  ⟨rfl, rfl⟩

/-- C7 amended.  After `return` the parser requires a whitespace token
(which the lexer never produces directly before a newline, leaving
`Return(None)` unreachable from source text); `return EXPR` returns
without consuming its terminator, so a following newline is only consumed
by the enclosing statement loop's newline skipping, EOF ends the file
parse, and a `;` is a parse error.  At token level the `Return(None)`
production does exist: a stream `return · Whitespace · Newline` yields it. -/
theorem C7_return_forms :
    parseFileStmts "return \n" = .error "Expected whitespace" ∧
    parseFileStmts "return x" = .ok [.Return (some (.Var 0))] ∧
    parseFileStmts "return x\nreturn y" =
      .ok [.Return (some (.Var 0)), .Return (some (.Var 1))] ∧
    parse_return 1 ⟨[.keyword .kreturn, .whitespace 1, .newline], [0], []⟩ =
      .ok (.Return Option.none, ⟨[], [0], []⟩) :=
  ⟨rfl, rfl, rfl, rfl⟩

/-- C8.  The first three precedence examples and the field chain hold,
but `f a b` parses as `f (a b)` — whitespace application binds
right-associatively, because the binding pair `(5, 4)` makes the
recursive right-operand parse (floor 4) swallow the next application
(left power 5 ≥ 4), despite the code comment "function application is
left-associative" — and `& * x` (with the spaces of the spec's example)
fails with "Expected `expr`" because the prefix phase does not skip the
whitespace after `&`; only `&*x` parses as `&(*x)`. -/
theorem C8_precedence_examples :
    parseExprStr "a + b * c" =
      .ok (.Operation (.Var 0) (.Operation (.Var 1) (.Var 2) .Mul) .Add) ∧
    parseExprStr "a * b + c" =
      .ok (.Operation (.Operation (.Var 0) (.Var 1) .Mul) (.Var 2) .Add) ∧
    parseExprStr "a == b + c" =
      .ok (.Operation (.Var 0) (.Operation (.Var 1) (.Var 2) .Add) .Equal) ∧
    parseExprStr "f a b" =
      .ok (.Operation (.Var 0) (.Operation (.Var 1) (.Var 2) .Apply) .Apply) ∧
    parseExprStr "a.b.c" = .ok (.Field (.Field (.Var 0) 1) 2) ∧
    parseExprStr "& * x" = .error "Expected `expr`" ∧
    parseExprStr "&*x" = .ok (.Borrow (.Deref (.Var 0))) :=
  ⟨rfl, rfl, rfl, rfl, rfl, rfl, rfl⟩

/-! ## Mid-level IR (src/mid_ast/tree.rs)

The IR statement/expression types are prefixed `M`.  `usize::MAX`
sentinels become the explicit all-ones 64-bit value.  The two `FnvHashMap`
patch side-tables become insertion-ordered association lists (only their
entry/insert/lookup behaviour is observable).
-/

def USIZE_MAX : Nat := 2 ^ 64 - 1

/-- Mirrors `mid_ast::StmtIndex` (`root` slot plus patch number; patch 0
is the original slot). -/
structure StmtIndex where
  root : Nat
  patch : Nat
deriving DecidableEq, Repr

def StmtIndex.invalid : StmtIndex := ⟨USIZE_MAX, 0⟩

/-- Mirrors `mid_ast::ExprIndex`. -/
structure ExprIndex where
  root : Nat
  patch : Nat
deriving DecidableEq, Repr

def ExprIndex.invalid : ExprIndex := ⟨USIZE_MAX, 0⟩

/-- Mirrors `mid_ast::ScopeIndex`. -/
structure ScopeIndex where
  idx : Nat
deriving DecidableEq, Repr

def ScopeIndex.invalid : ScopeIndex := ⟨USIZE_MAX⟩

/-- Mirrors `mid_ast::FunctionIndex`. -/
structure FunctionIndex where
  idx : Nat
deriving DecidableEq, Repr

def FunctionIndex.invalid : FunctionIndex := ⟨USIZE_MAX⟩

/-- Mirrors `mid_ast::VarIndex`. -/
structure VarIndex where
  idx : Nat
deriving DecidableEq, Repr

def VarIndex.invalid : VarIndex := ⟨USIZE_MAX⟩

/-- Mirrors `mid_ast::Block` (IR block: statement range plus scope). -/
structure MBlock where
  first : StmtIndex
  last : StmtIndex
  scope : ScopeIndex
deriving DecidableEq, Repr

/-- Mirrors `mid_ast::ConditionalAction`. -/
inductive MConditionalAction where
  | Expr (e : ExprIndex)
  | Scope (b : MBlock)
deriving DecidableEq, Repr

/-- Mirrors `mid_ast::Stmt`. -/
inductive MStmt where
  | VarDef (v : VarIndex)
  | VarSet (name : Nat) (data : ExprIndex) (var : VarIndex)
  | IfElse (condition : ExprIndex) (block : MBlock) (else_block : Option MBlock)
      (last : StmtIndex)
  | Conditional (conditions : List ExprIndex) (actions : List MConditionalAction)
      (last : StmtIndex)
  | Disown (e : ExprIndex)
  | Expr (e : ExprIndex)
  | Return (e : Option ExprIndex)
  | JumpTo (s : StmtIndex)
  | Skip
deriving DecidableEq, Repr

/-- Mirrors `mid_ast::Expr`. -/
inductive MExpr where
  | Operation (left right : ExprIndex) (op : Operator)
  | Field (left : ExprIndex) (name : Nat)
  | Group (items : List ExprIndex)
  | RawVar (name : Nat)
  | Number (n : Int)
  | String (s : Nat)
  | Borrow (e : ExprIndex)
  | Deref (e : ExprIndex)
  | None
  | Var (v : VarIndex)
  | Function (f : FunctionIndex)
  | Skip
deriving DecidableEq, Repr

/-- Mirrors `mid_ast::Type` (the inferred-type placeholder). -/
inductive DataType where
  | Ref (t : DataType)
  | Tuple (ts : List DataType)
  | String
  | Number
  | Undetermined
deriving Repr

/-- Mirrors `mid_ast::MemoryLocation`. -/
inductive MemoryLocation where
  | Stack (slot : Nat)
  | Heap
  | Undetermined
deriving DecidableEq, Repr

/-- Mirrors `mid_ast::Scope`.  The two `FnvHashMap`s are modelled as
insertion-ordered association lists; the inner pattern map of
`functions` compares keys with the name-agnostic `pattern_beq`. -/
structure Scope where
  first : StmtIndex
  last : StmtIndex
  stack_slots : Nat
  vars : List (Nat × List VarIndex)
  functions : List (Nat × List (Pattern × FunctionIndex))
  scopes : List ScopeIndex
deriving Repr

/-- Mirrors `mid_ast::VarMetadata`. -/
structure VarMetadata where
  in_scope : ScopeIndex
  definition : StmtIndex
  init : Option ExprIndex
  disown : Option StmtIndex
  data_type : DataType
  borrows : List StmtIndex
  uses : List StmtIndex
  derefs : List StmtIndex
  assigns : List StmtIndex
  mem_loc : MemoryLocation
  mutable : Bool
  name : Nat
deriving Repr

/-- Mirrors `mid_ast::FunctionDef`. -/
structure FunctionDef where
  is_proc : Bool
  name : Nat
  pattern : Pattern
  block : MBlock
deriving Repr

/-- Association-list lookup for the patch side tables
(`FnvHashMap<usize, Vec<_>>`). -/
def alist_find {α : Type} (m : List (Nat × α)) (k : Nat) : Option α :=
  match m with
  | [] => Option.none
  | (k', v) :: rest => if k' = k then some v else alist_find rest k

/-- Association-list insert-or-replace for the patch side tables. -/
def alist_set {α : Type} (m : List (Nat × α)) (k : Nat) (v : α) : List (Nat × α) :=
  match m with
  | [] => [(k, v)]
  | (k', v') :: rest => if k' = k then (k', v) :: rest else (k', v') :: alist_set rest k v

/-- Mirrors `mid_ast::File` (the arena). -/
structure File where
  stmts : List MStmt
  patch_stmts : List (Nat × List MStmt)
  exprs : List MExpr
  patch_exprs : List (Nat × List MExpr)
  scopes : List Scope
  functions : List FunctionDef
  vars : List VarMetadata
  root_scope : ScopeIndex
deriving Repr

/-- Mirrors `File::new`. -/
def File.new : File :=
  { stmts := [], patch_stmts := [], exprs := [], patch_exprs := []
    scopes := [], functions := [], vars := [], root_scope := ⟨0⟩ }

/-- Mirrors `File::add_var`. -/
def add_var (f : File) (var : VarMetadata) : VarIndex × File :=
  (⟨f.vars.length⟩, { f with vars := f.vars ++ [var] })

/-- Mirrors `File::add_function`. -/
def add_function (f : File) (fd : FunctionDef) : FunctionIndex × File :=
  (⟨f.functions.length⟩, { f with functions := f.functions ++ [fd] })

/-- Mirrors `File::add_scope`. -/
def add_scope (f : File) (sc : Scope) : ScopeIndex × File :=
  (⟨f.scopes.length⟩, { f with scopes := f.scopes ++ [sc] })

/-- Mirrors `File::add_stmt`: appends at the next root slot (patch 0). -/
def add_stmt (f : File) (stmt : MStmt) : StmtIndex × File :=
  (⟨f.stmts.length, 0⟩, { f with stmts := f.stmts ++ [stmt] })

/-- Mirrors `File::patch_stmt`: appends to the patch list of
`location.root` and addresses the new entry as patch `len`. -/
def patch_stmt (f : File) (patch : MStmt) (location : StmtIndex) : StmtIndex × File :=
  let entry := (alist_find f.patch_stmts location.root).getD []
  let entry := entry ++ [patch]
  (⟨location.root, entry.length⟩,
    { f with patch_stmts := alist_set f.patch_stmts location.root entry })

/-- Mirrors `File::add_expr`. -/
def add_expr (f : File) (e : MExpr) : ExprIndex × File :=
  (⟨f.exprs.length, 0⟩, { f with exprs := f.exprs ++ [e] })

/-- Mirrors `File::patch_expr`. -/
def patch_expr (f : File) (patch : MExpr) (location : ExprIndex) : ExprIndex × File :=
  let entry := (alist_find f.patch_exprs location.root).getD []
  let entry := entry ++ [patch]
  (⟨location.root, entry.length⟩,
    { f with patch_exprs := alist_set f.patch_exprs location.root entry })

/-- Mirrors `File::get_stmt`: patch 0 reads the root vector, patch `k+1`
reads the `k`-th override.  The Rust accessor panics (`unwrap` /
out-of-bounds index) where this returns `none`. -/
def get_stmt (f : File) (loc : StmtIndex) : Option MStmt :=
  if loc.patch = 0 then f.stmts.get? loc.root
  else (alist_find f.patch_stmts loc.root).bind (fun l => l.get? (loc.patch - 1))

/-- Mirrors `File::get_expr`. -/
def get_expr (f : File) (loc : ExprIndex) : Option MExpr :=
  if loc.patch = 0 then f.exprs.get? loc.root
  else (alist_find f.patch_exprs loc.root).bind (fun l => l.get? (loc.patch - 1))

/-! ## Lowering (src/mid_ast/conversion.rs)

`FileConversion` carries the `File` under construction plus the raw
function worklist; every method threads it explicitly.
-/

/-- Mirrors `conversion::RawFunction`. -/
structure RawFunction where
  owning_scope : ScopeIndex
  is_proc : Bool
  name : Nat
  pattern : Pattern
  block : PBlock

/-- Mirrors `conversion::StmtReturn`. -/
structure StmtReturn where
  function : Option RawFunction
  var : Option (Nat × VarIndex)
  scopes : List ScopeIndex

/-- Mirrors `conversion::FileConversion` (the conversion state). -/
structure CState where
  file : File
  raw_func_queue : List RawFunction

/-- Mirrors `FileConversion::next_stmt_index`. -/
def next_stmt_index (s : CState) : StmtIndex := ⟨s.file.stmts.length, 0⟩

/-- Mirrors `FileConversion::this_stmt_index` (`saturating_sub`). -/
def this_stmt_index (s : CState) : StmtIndex := ⟨s.file.stmts.length - 1, 0⟩

def add_var_c (s : CState) (v : VarMetadata) : VarIndex × CState :=
  let (i, file) := add_var s.file v
  (i, { s with file })

def add_function_c (s : CState) (fd : FunctionDef) : FunctionIndex × CState :=
  let (i, file) := add_function s.file fd
  (i, { s with file })

def add_scope_c (s : CState) (sc : Scope) : ScopeIndex × CState :=
  let (i, file) := add_scope s.file sc
  (i, { s with file })

def add_stmt_c (s : CState) (stmt : MStmt) : StmtIndex × CState :=
  let (i, file) := add_stmt s.file stmt
  (i, { s with file })

def add_expr_c (s : CState) (e : MExpr) : ExprIndex × CState :=
  let (i, file) := add_expr s.file e
  (i, { s with file })

/-- In-place update of one list element (identity when out of bounds;
`Vec` indexing / `get_mut_scope` would panic there, which the
conversion never does). -/
def list_update {α : Type} : List α → Nat → (α → α) → List α
  | [], _, _ => []
  | x :: rest, 0, g => g x :: rest
  | x :: rest, i + 1, g => x :: list_update rest i g

/-- Applies `g` to the scope `sc` of the file. -/
def update_scope (s : CState) (sc : ScopeIndex) (g : Scope → Scope) : CState :=
  { s with file := { s.file with scopes := list_update s.file.scopes sc.idx g } }

/-- `scope.vars.entry(name).or_default().push(index)`. -/
def vars_push (m : List (Nat × List VarIndex)) (name : Nat) (index : VarIndex) :
    List (Nat × List VarIndex) :=
  match m with
  | [] => [(name, [index])]
  | (k, l) :: rest =>
    if k = name then (k, l ++ [index]) :: rest
    else (k, l) :: vars_push rest name index

/-- `HashMap::<Rc<Pattern>, FunctionIndex>::insert`: replaces the value
of the first `pattern_beq`-equal key (the original key object is kept, as
Rust's `insert` keeps the existing key), else appends. -/
def pats_insert (m : List (Pattern × FunctionIndex)) (k : Pattern) (v : FunctionIndex) :
    List (Pattern × FunctionIndex) :=
  match m with
  | [] => [(k, v)]
  | (k', v') :: rest =>
    if pattern_beq k' k then (k', v) :: rest
    else (k', v') :: pats_insert rest k v

/-- `scope.functions.entry(name).or_default().insert(pattern, index)`. -/
def fns_insert (m : List (Nat × List (Pattern × FunctionIndex))) (name : Nat)
    (pat : Pattern) (index : FunctionIndex) :
    List (Nat × List (Pattern × FunctionIndex)) :=
  match m with
  | [] => [(name, pats_insert [] pat index)]
  | (k, l) :: rest =>
    if k = name then (k, pats_insert l pat index) :: rest
    else (k, l) :: fns_insert rest name pat index

mutual
/-- Mirrors `FileConversion::convert_expr`. -/
def convert_expr (s : CState) : PExpr → ExprIndex × CState
  | .Operation left right op =>
    let (l, s) := convert_expr s left
    let (r, s) := convert_expr s right
    add_expr_c s (.Operation l r op)
  | .Field left name =>
    let (l, s) := convert_expr s left
    add_expr_c s (.Field l name)
  | .Group list =>
    let (new_list, s) := convert_expr_list s list
    add_expr_c s (.Group new_list)
  | .Var name => add_expr_c s (.RawVar name)
  | .Number n => add_expr_c s (.Number n)
  | .String str => add_expr_c s (.String str)
  | .Borrow inner =>
    let (i, s) := convert_expr s inner
    add_expr_c s (.Borrow i)
  | .Deref inner =>
    let (i, s) := convert_expr s inner
    add_expr_c s (.Deref i)
  | .None => add_expr_c s (.None)

/-- The `map`/`collect` over a `Vec<Expr>` (left to right). -/
def convert_expr_list (s : CState) : List PExpr → List ExprIndex × CState
  | [] => ([], s)
  | e :: rest =>
    let (i, s) := convert_expr s e
    let (is_, s) := convert_expr_list s rest
    (i :: is_, s)
end

mutual
/-- Mirrors `FileConversion::convert_stmt`. -/
def convert_stmt (s : CState) (scope : ScopeIndex) : PStmt → StmtReturn × CState
  | .FunctionDef is_proc name pattern block =>
    ({ function := some ⟨scope, is_proc, name, pattern, block⟩
       var := Option.none, scopes := [] }, s)
  | .VarDef mutable name data =>
    let (data_index, s) :=
      match data with
      | some d =>
        let (i, s) := convert_expr s d
        (some i, s)
      | Option.none => (Option.none, s)
    let (def_idx, s) := add_var_c s
      { in_scope := scope
        definition := this_stmt_index s
        init := data_index
        disown := Option.none
        data_type := .Undetermined
        borrows := [], uses := [], derefs := [], assigns := []
        mem_loc := .Undetermined
        mutable, name }
    let (_, s) := add_stmt_c s (.VarDef def_idx)
    ({ function := Option.none, var := some (name, def_idx), scopes := [] }, s)
  | .VarSet name data =>
    let (d, s) := convert_expr s data
    let (_, s) := add_stmt_c s (.VarSet name d VarIndex.invalid)
    ({ function := Option.none, var := Option.none, scopes := [] }, s)
  | .IfElse condition block dflt =>
    let (c, s) := convert_expr s condition
    let (b, s) := convert_block s block
    let (else_block, scopes2, s) :=
      match dflt with
      | some else_b =>
        let (b2, s) := convert_block s else_b
        (some b2, [b.scope, b2.scope], s)
      | Option.none => (Option.none, [b.scope], s)
    let (_, s) := add_stmt_c s (.IfElse c b else_block (this_stmt_index s))
    ({ function := Option.none, var := Option.none, scopes := scopes2 }, s)
  | .Conditional conditions actions =>
    let (cs, s) := convert_expr_list s conditions
    let (acts, scopes2, s) := convert_actions s actions
    let (_, s) := add_stmt_c s (.Conditional cs acts (this_stmt_index s))
    ({ function := Option.none, var := Option.none, scopes := scopes2 }, s)
  | .Scope block =>
    let (b, s) := convert_block s block
    ({ function := Option.none, var := Option.none, scopes := [b.scope] }, s)
  | .Disown e =>
    let (i, s) := convert_expr s e
    let (_, s) := add_stmt_c s (.Disown i)
    ({ function := Option.none, var := Option.none, scopes := [] }, s)
  | .Return opt =>
    let (e, s) :=
      match opt with
      | some e0 =>
        let (i, s) := convert_expr s e0
        (some i, s)
      | Option.none => (Option.none, s)
    let (_, s) := add_stmt_c s (.Return e)
    ({ function := Option.none, var := Option.none, scopes := [] }, s)
  | .Expr e =>
    let (i, s) := convert_expr s e
    let (_, s) := add_stmt_c s (.Expr i)
    ({ function := Option.none, var := Option.none, scopes := [] }, s)

/-- The actions `map` inside the `Conditional` arm (scope actions collect
their child scope on the side, in iteration order). -/
def convert_actions (s : CState) :
    List PConditionalAction → List MConditionalAction × List ScopeIndex × CState
  | [] => ([], [], s)
  | .Expr e :: rest =>
    let (i, s) := convert_expr s e
    let (acts, scps, s) := convert_actions s rest
    (.Expr i :: acts, scps, s)
  | .Scope b :: rest =>
    let (mb, s) := convert_block s b
    let (acts, scps, s) := convert_actions s rest
    (.Scope mb :: acts, mb.scope :: scps, s)

/-- Mirrors `FileConversion::convert_block`: allocate the scope, fold the
statements, set `last`, then append the collected raw functions to the
worklist. -/
def convert_block (s : CState) : PBlock → MBlock × CState
  | .mk stmts =>
    let (scope_index, s) := add_scope_c s
      { first := next_stmt_index s
        last := next_stmt_index s
        functions := []
        scopes := []
        stack_slots := 0
        vars := [] }
    let first := next_stmt_index s
    let (functions, s) := convert_block_fold s scope_index stmts []
    let last := this_stmt_index s
    let s := update_scope s scope_index (fun sc => { sc with last })
    let block : MBlock := { first, last, scope := scope_index }
    let s := { s with raw_func_queue := s.raw_func_queue ++ functions }
    (block, s)

/-- The statement fold inside `convert_block`: per statement, register
the new variable binding, collect the raw function, and append the child
scopes. -/
def convert_block_fold (s : CState) (scope_index : ScopeIndex) :
    List PStmt → List RawFunction → List RawFunction × CState
  | [], functions => (functions, s)
  | stmt :: rest, functions =>
    let (ret, s) := convert_stmt s scope_index stmt
    let s :=
      match ret.var with
      | some (name, index) =>
        update_scope s scope_index (fun sc => { sc with vars := vars_push sc.vars name index })
      | Option.none => s
    let functions :=
      match ret.function with
      | some fn => functions ++ [fn]
      | Option.none => functions
    let s := update_scope s scope_index (fun sc => { sc with scopes := sc.scopes ++ ret.scopes })
    convert_block_fold s scope_index rest functions
end

/-- Mirrors `FileConversion::convert_function`: lower the body, record
the `FunctionDef`, and insert it into the owning scope's dispatch table
under `(name, pattern)`. -/
def convert_function (s : CState) (func : RawFunction) : CState :=
  let (block, s) := convert_block s func.block
  let (index, s) := add_function_c s
    { is_proc := func.is_proc, name := func.name, pattern := func.pattern, block }
  update_scope s func.owning_scope
    (fun sc => { sc with functions := fns_insert sc.functions func.name func.pattern index })

/-- `Vec::pop`: removes and returns the LAST element. -/
def pop_queue : List RawFunction → Option (RawFunction × List RawFunction)
  | [] => Option.none
  | [f] => some (f, [])
  | f :: rest =>
    match pop_queue rest with
    | some (g, rest') => some (g, f :: rest')
    | Option.none => Option.none

mutual
/-- A size measure on parse trees: every constructor and every block
weighs at least 1. -/
def psize_stmt : PStmt → Nat
  | .FunctionDef _ _ _ b => 1 + psize_block b
  | .IfElse _ b d => 1 + psize_block b + (match d with | some b2 => psize_block b2 | Option.none => 0)
  | .Conditional _ acts => 1 + psize_acts acts
  | .Scope b => 1 + psize_block b
  | _ => 1

def psize_block : PBlock → Nat
  | .mk stmts => 1 + psize_stmts stmts

def psize_stmts : List PStmt → Nat
  | [] => 0
  | stmt :: rest => psize_stmt stmt + psize_stmts rest

def psize_acts : List PConditionalAction → Nat
  | [] => 0
  | .Expr _ :: rest => 1 + psize_acts rest
  | .Scope b :: rest => psize_block b + psize_acts rest
end

/-- Total size of the bodies still waiting on the worklist. -/
def queue_size (q : List RawFunction) : Nat :=
  match q with
  | [] => 0
  | f :: rest => psize_block f.block + queue_size rest

/-- The `while let Some(raw_function) = queue.pop()` drain loop of
`FileConversion::convert`.  Each pop strictly decreases the total queued
body size (a body enqueues only strictly smaller nested bodies), so
`queue_size + 1` steps of fuel always run the loop to completion; the
fuel-exhausted branch is unreachable from `convert_parse_tree`. -/
def drain : Nat → CState → File
  | 0, s => s.file
  | fuel + 1, s =>
    match pop_queue s.raw_func_queue with
    | Option.none => s.file
    | some (func, rest) => drain fuel (convert_function { s with raw_func_queue := rest } func)

/-- Mirrors `convert_parse_tree` / `FileConversion::convert`: lower the
top-level statements as the root block, then drain the function
worklist. -/
def convert_parse_tree (stmts : List PStmt) : File :=
  let s : CState := { file := File.new, raw_func_queue := [] }
  let (blk, s) := convert_block s (.mk stmts)
  let s := { s with file := { s.file with root_scope := blk.scope } }
  drain (queue_size s.raw_func_queue + 1) s

/-! ## Patch-addressing lemmas (claim C9) -/

theorem alist_find_set_self {α : Type} (m : List (Nat × α)) (k : Nat) (v : α) :
    alist_find (alist_set m k v) k = some v := by
  induction m with
  | nil => simp [alist_set, alist_find]
  | cons e rest ih =>
    by_cases h : e.1 = k
    · simp [alist_set, alist_find, h]
    · simp [alist_set, alist_find, h, ih]

theorem alist_find_set_ne {α : Type} (m : List (Nat × α)) (k k' : Nat) (v : α)
    (h : k' ≠ k) : alist_find (alist_set m k v) k' = alist_find m k' := by
  induction m with
  | nil =>
    simp only [alist_set, alist_find]
    rw [if_neg (fun he => h he.symm)]
  | cons e rest ih =>
    obtain ⟨k0, v0⟩ := e
    simp only [alist_set, alist_find]
    by_cases he : k0 = k
    · have h1 : ¬ (k0 = k') := fun hh => h (hh ▸ he)
      rw [if_pos he]
      simp only [alist_find]
      rw [if_neg h1, if_neg h1]
    · rw [if_neg he]
      simp only [alist_find]
      by_cases h2 : k0 = k'
      · rw [if_pos h2, if_pos h2]
      · rw [if_neg h2, if_neg h2, ih]

/-- Appending a patch to the side table of slot `lr` does not change the
resolution of any patch address that already resolved. -/
theorem patched_get_preserved {α : Type} (m : List (Nat × List α)) (lr jr k : Nat) (p : α)
    (hj : ((alist_find m jr).bind (fun l => l.get? k)).isSome = true) :
    ((alist_find (alist_set m lr ((alist_find m lr).getD [] ++ [p])) jr).bind
      (fun l => l.get? k)) = (alist_find m jr).bind (fun l => l.get? k) := by
  by_cases hr : jr = lr
  · subst hr
    rw [alist_find_set_self]
    cases hfind : alist_find m jr with
    | none => rw [hfind] at hj; simp at hj
    | some l =>
      rw [hfind] at hj
      simp only [Option.getD_some, Option.some_bind] at hj ⊢
      cases hget : l.get? k with
      | none => rw [hget] at hj; simp at hj
      | some x =>
        have hk : k < l.length := by
          rcases List.get?_eq_some.mp hget with ⟨hlt, _⟩
          exact hlt
        rw [List.get?_append hk, hget]
  · rw [alist_find_set_ne _ _ _ _ hr]

/-- C9.  Patch addressing: `get_stmt` returns exactly what `add_stmt`
appended; after `patch_stmt p idx`, the original index still reads the
original statement while the returned patch index reads `p`; and
appending a patch (at any location) never invalidates any index that
already resolved — symmetrically for the expression store. -/
theorem C9_patch_addressing (f : File) (s p : MStmt) (e q : MExpr) (loc : StmtIndex)
    (eloc : ExprIndex) :
    (get_stmt (add_stmt f s).2 (add_stmt f s).1 = some s) ∧
    (get_stmt (patch_stmt (add_stmt f s).2 p (add_stmt f s).1).2 (add_stmt f s).1 = some s) ∧
    (get_stmt (patch_stmt (add_stmt f s).2 p (add_stmt f s).1).2
      (patch_stmt (add_stmt f s).2 p (add_stmt f s).1).1 = some p) ∧
    (∀ j, (get_stmt f j).isSome = true →
      get_stmt (patch_stmt f p loc).2 j = get_stmt f j) ∧
    (get_expr (add_expr f e).2 (add_expr f e).1 = some e) ∧
    (get_expr (patch_expr (add_expr f e).2 q (add_expr f e).1).2 (add_expr f e).1 = some e) ∧
    (get_expr (patch_expr (add_expr f e).2 q (add_expr f e).1).2
      (patch_expr (add_expr f e).2 q (add_expr f e).1).1 = some q) ∧
    (∀ j, (get_expr f j).isSome = true →
      get_expr (patch_expr f q eloc).2 j = get_expr f j) := by
  refine ⟨?_, ?_, ?_, ?_, ?_, ?_, ?_, ?_⟩
  · simp [add_stmt, get_stmt, List.get?_concat_length]
  · simp [add_stmt, get_stmt, patch_stmt, List.get?_concat_length]
  · simp [add_stmt, get_stmt, patch_stmt, alist_find_set_self]
  · intro j hj
    by_cases hp : j.patch = 0
    · simp [get_stmt, patch_stmt, hp]
    · simp only [get_stmt, patch_stmt, if_neg hp] at hj ⊢
      exact patched_get_preserved _ loc.root j.root (j.patch - 1) p hj
  · simp [add_expr, get_expr, List.get?_concat_length]
  · simp [add_expr, get_expr, patch_expr, List.get?_concat_length]
  · simp [add_expr, get_expr, patch_expr, alist_find_set_self]
  · intro j hj
    by_cases hp : j.patch = 0
    · simp [get_expr, patch_expr, hp]
    · simp only [get_expr, patch_expr, if_neg hp] at hj ⊢
      exact patched_get_preserved _ eloc.root j.root (j.patch - 1) q hj

/-- C9 witness: the whole statement instantiated on an empty file, with
the resolvable-index hypotheses discharged at the index issued by
`add_stmt` / `add_expr` on that file. -/
theorem C9_patch_addressing_witness :
    get_stmt (patch_stmt (add_stmt File.new .Skip).2 (.Return Option.none)
        ⟨0, 0⟩).2 ⟨0, 0⟩ = get_stmt (add_stmt File.new .Skip).2 ⟨0, 0⟩ ∧
    get_expr (patch_expr (add_expr File.new .None).2 .Skip
        ⟨0, 0⟩).2 ⟨0, 0⟩ = get_expr (add_expr File.new .None).2 ⟨0, 0⟩ :=
  ⟨(C9_patch_addressing (add_stmt File.new .Skip).2 .Skip (.Return Option.none) .None .Skip
      ⟨0, 0⟩ ⟨0, 0⟩).2.2.2.1 ⟨0, 0⟩ (by decide),
   (C9_patch_addressing (add_expr File.new .None).2 .Skip (.Return Option.none) .None .Skip
      ⟨0, 0⟩ ⟨0, 0⟩).2.2.2.2.2.2.2 ⟨0, 0⟩ (by decide)⟩

/-! ## Reachability counting for dispatch tables (claim C6) -/

/-- Number of entries of one pattern map whose value is `g`. -/
def count_in_pats : List (Pattern × FunctionIndex) → FunctionIndex → Nat
  | [], _ => 0
  | e :: rest, g => (if e.2 = g then 1 else 0) + count_in_pats rest g

/-- Number of entries of one scope's `functions` table whose value is `g`. -/
def count_in_fns : List (Nat × List (Pattern × FunctionIndex)) → FunctionIndex → Nat
  | [], _ => 0
  | e :: rest, g => count_in_pats e.2 g + count_in_fns rest g

/-- Number of entries over a list of `functions` tables. -/
def count_in_fnss : List (List (Nat × List (Pattern × FunctionIndex))) → FunctionIndex → Nat
  | [], _ => 0
  | F :: rest, g => count_in_fns F g + count_in_fnss rest g

/-- How many `Scope.functions` entries of the whole file resolve to the
function record `g` — the claim's "reachable from exactly one
`Scope.functions` entry" counts this. -/
def count_fn_entries (f : File) (g : FunctionIndex) : Nat :=
  count_in_fnss (f.scopes.map Scope.functions) g

/-! ## Conversion counterexamples (claims C4, C5, C6) -/

/-- C4 counterexample.  Lowering two consecutive `let` definitions, the
second `VarDef` statement is emitted at index 1, but its
`VarMetadata.definition` is `this_stmt_index` taken BEFORE the push,
i.e. index 0 — the index of the preceding statement, not of the
`VarDef` itself. -/
theorem C4_counterexample :
    (convert_parse_tree [.VarDef false 0 Option.none, .VarDef false 1 Option.none]).stmts.get? 1
      = some (.VarDef ⟨1⟩) ∧
    ((convert_parse_tree [.VarDef false 0 Option.none,
        .VarDef false 1 Option.none]).vars.get? 1).map VarMetadata.definition
      = some ⟨0, 0⟩ ∧
    (⟨0, 0⟩ : StmtIndex) ≠ ⟨1, 0⟩ :=
  ⟨rfl, rfl, by decide⟩

/-- C5 counterexample.  A scope that emits no statements while the
statement arena is already nonempty gets `first = ⟨1,0⟩` (the next slot)
and `last = ⟨0,0⟩` (`this_stmt_index`, the slot before it): `first ≤ last`
fails and the two are not a common sentinel. -/
theorem C5_counterexample :
    ((convert_parse_tree [.VarDef false 0 Option.none, .Scope (.mk [])]).scopes.get? 1).map
      (fun sc => (sc.first, sc.last)) = some (⟨1, 0⟩, ⟨0, 0⟩) ∧
    ¬ ((1 : Nat) ≤ 0) ∧
    (⟨1, 0⟩ : StmtIndex) ≠ ⟨0, 0⟩ :=
  ⟨rfl, by decide, by decide⟩

/-- C6 counterexample.  Two same-name overloads whose patterns are equal
under name-agnostic pattern equality (`(x, 0)` vs `(y, 0)`): both
`FunctionDef`s are stored in `File.functions`, but the second `insert`
overwrites the dispatch entry, so the function record converted first
(index 0, the LAST one in source order — the worklist is drained LIFO) is
reachable from zero `Scope.functions` entries, falsifying "exactly
one". -/
theorem C6_counterexample :
    (convert_parse_tree
      [.FunctionDef false 0 (.Group [.Name 1, .Number 0]) (.mk [.Return Option.none]),
       .FunctionDef false 0 (.Group [.Name 2, .Number 0]) (.mk [.Return Option.none])]).functions.length = 2 ∧
    count_fn_entries (convert_parse_tree
      [.FunctionDef false 0 (.Group [.Name 1, .Number 0]) (.mk [.Return Option.none]),
       .FunctionDef false 0 (.Group [.Name 2, .Number 0]) (.mk [.Return Option.none])]) ⟨0⟩ = 0 :=
  ⟨rfl, rfl⟩

/-! ## Invariant framework for the lowering pass

`StepOk s t` records what one conversion step may do to the arena:
statements and variables are only appended, the function records and the
statement patch table are untouched, pre-existing scopes keep their
`first`/`last`, and the `functions` tables of all scopes are unchanged
except that fresh scopes start with an empty table.  `InvAll` is the
conjunction of the per-claim invariants carried through the induction.
-/

def ListExtends {α : Type} (l1 l2 : List α) : Prop := ∃ d, l2 = l1 ++ d

theorem ListExtends.ext_rfl {α : Type} (l : List α) : ListExtends l l :=
  ⟨[], by simp⟩

theorem ListExtends.of_append {α : Type} (l d : List α) : ListExtends l (l ++ d) :=
  ⟨d, by simp⟩

theorem ListExtends.ext_trans {α : Type} {a b c : List α}
    (h1 : ListExtends a b) (h2 : ListExtends b c) : ListExtends a c := by
  obtain ⟨d1, rfl⟩ := h1
  obtain ⟨d2, rfl⟩ := h2
  exact ⟨d1 ++ d2, by simp⟩

theorem ListExtends.length_le {α : Type} {a b : List α} (h : ListExtends a b) :
    a.length ≤ b.length := by
  obtain ⟨d, rfl⟩ := h
  simp

theorem ListExtends.get? {α : Type} {a b : List α} {j : Nat} {x : α}
    (h : ListExtends a b) (hj : a.get? j = some x) : b.get? j = some x := by
  obtain ⟨d, rfl⟩ := h
  have hlt : j < a.length := by
    rcases List.get?_eq_some.mp hj with ⟨hlt, _⟩
    exact hlt
  rw [List.get?_append hlt]
  exact hj

theorem get?_concat_cases {α : Type} {l : List α} {x y : α} {j : Nat}
    (h : (l ++ [x]).get? j = some y) : l.get? j = some y ∨ (j = l.length ∧ y = x) := by
  by_cases hj : j < l.length
  · left
    rw [List.get?_append hj] at h
    exact h
  · right
    have hlen : j < l.length + 1 := by
      rcases List.get?_eq_some.mp h with ⟨hlt, _⟩
      simpa using hlt
    have hje : j = l.length := by omega
    subst hje
    rw [List.get?_concat_length] at h
    exact ⟨Eq.refl _, (Option.some_inj.mp h).symm⟩

theorem list_update_length {α : Type} (l : List α) (i : Nat) (g : α → α) :
    (list_update l i g).length = l.length := by
  induction l generalizing i with
  | nil => rfl
  | cons x rest ih =>
    cases i with
    | zero => simp [list_update]
    | succ i2 => simp [list_update, ih]

theorem list_update_get? {α : Type} (l : List α) (i : Nat) (g : α → α) (j : Nat) :
    (list_update l i g).get? j = if i = j then (l.get? j).map g else l.get? j := by
  induction l generalizing i j with
  | nil => simp [list_update]
  | cons x rest ih =>
    cases i with
    | zero =>
      cases j with
      | zero => simp [list_update]
      | succ j2 => simp [list_update]
    | succ i2 =>
      cases j with
      | zero => simp [list_update]
      | succ j2 => simpa [list_update] using ih i2 j2

theorem list_update_map {α β : Type} (l : List α) (i : Nat) (g : α → α) (h : α → β)
    (hp : ∀ x, h (g x) = h x) : (list_update l i g).map h = l.map h := by
  induction l generalizing i with
  | nil => rfl
  | cons x rest ih =>
    cases i with
    | zero => simp [list_update, hp]
    | succ i2 => simp [list_update, ih]

/-- The `functions` tables of the scope list only grow by empty tables.
(All scope tables are empty until the worklist drain starts filling
them.) -/
def FnsFrame (s t : List Scope) : Prop :=
  ∃ d, t.map Scope.functions = s.map Scope.functions ++ d ∧ ∀ x ∈ d, x = []

theorem FnsFrame.frame_rfl (s : List Scope) : FnsFrame s s :=
  ⟨[], by simp, by simp⟩

theorem FnsFrame.frame_trans {a b c : List Scope} (h1 : FnsFrame a b) (h2 : FnsFrame b c) :
    FnsFrame a c := by
  obtain ⟨d1, he1, hd1⟩ := h1
  obtain ⟨d2, he2, hd2⟩ := h2
  refine ⟨d1 ++ d2, by rw [he2, he1, List.append_assoc], ?_⟩
  intro x hx
  rcases List.mem_append.mp hx with h | h
  · exact hd1 x h
  · exact hd2 x h

/-- One conversion step of `convert_stmt` / `convert_block`: appends to
`stmts` and `vars`, leaves `functions` and the statement patch table
alone, preserves `first`/`last` of pre-existing scopes, and only adds
scopes with empty dispatch tables. -/
def StepOk (s t : CState) : Prop :=
  ListExtends s.file.stmts t.file.stmts ∧
  ListExtends s.file.vars t.file.vars ∧
  t.file.functions = s.file.functions ∧
  t.file.patch_stmts = s.file.patch_stmts ∧
  s.file.scopes.length ≤ t.file.scopes.length ∧
  (∀ i, i < s.file.scopes.length →
    (t.file.scopes.get? i).map Scope.first = (s.file.scopes.get? i).map Scope.first ∧
    (t.file.scopes.get? i).map Scope.last = (s.file.scopes.get? i).map Scope.last) ∧
  FnsFrame s.file.scopes t.file.scopes

theorem StepOk.step_rfl (s : CState) : StepOk s s :=
  ⟨ListExtends.ext_rfl _, ListExtends.ext_rfl _, Eq.refl _, Eq.refl _, Nat.le.refl,
   fun _ _ => ⟨Eq.refl _, Eq.refl _⟩, FnsFrame.frame_rfl _⟩

theorem StepOk.step_trans {a b c : CState} (h1 : StepOk a b) (h2 : StepOk b c) : StepOk a c := by
  obtain ⟨s1, v1, f1, p1, l1, fl1, ff1⟩ := h1
  obtain ⟨s2, v2, f2, p2, l2, fl2, ff2⟩ := h2
  refine ⟨s1.ext_trans s2, v1.ext_trans v2, f2.trans f1, p2.trans p1, Nat.le_trans l1 l2,
    fun i hi => ?_, ff1.frame_trans ff2⟩
  have hi2 : i < b.file.scopes.length := Nat.lt_of_lt_of_le hi l1
  exact ⟨(fl2 i hi2).1.trans (fl1 i hi).1, (fl2 i hi2).2.trans (fl1 i hi).2⟩

/-! ## The per-claim invariants -/

/-- C4's (amended) invariant: every `VarDef` statement at slot `j` owns a
variable record whose `definition` is `⟨j-1, 0⟩` (saturating at 0). -/
def VarDefInv (f : File) : Prop :=
  ∀ j v, f.stmts.get? j = some (MStmt.VarDef v) →
    (f.vars.get? v.idx).map VarMetadata.definition = some ⟨j - 1, 0⟩

/-- C5's (amended) invariant: every scope satisfies
`first.root ≤ last.root + 1` with patch 0 on both ends. -/
def ScopeRangeInv (f : File) : Prop :=
  ∀ i sc, f.scopes.get? i = some sc →
    sc.first.root ≤ sc.last.root + 1 ∧ sc.first.patch = 0 ∧ sc.last.patch = 0

/-- C10's invariant: every `VarSet` statement carries the all-ones
sentinel variable index. -/
def VarSetInv (f : File) : Prop :=
  ∀ j name d v, f.stmts.get? j = some (MStmt.VarSet name d v) → v = VarIndex.invalid

/-- C6's (amended) invariant: an out-of-range function index is
referenced by no dispatch entry, and any function index by at most one. -/
def FnInv (f : File) : Prop :=
  ∀ g : FunctionIndex,
    (f.functions.length ≤ g.idx → count_fn_entries f g = 0) ∧ count_fn_entries f g ≤ 1

/-- All invariants carried through the lowering induction, plus the fact
that lowering never writes a statement patch. -/
def InvAll (f : File) : Prop :=
  VarDefInv f ∧ ScopeRangeInv f ∧ VarSetInv f ∧ FnInv f ∧ f.patch_stmts = []

theorem InvAll_new : InvAll File.new := by
  refine ⟨fun j v h => ?_, fun i sc h => ?_, fun j n d v h => ?_, fun g => ⟨fun _ => ?_, ?_⟩, ?_⟩
  · simp [File.new] at h
  · simp [File.new] at h
  · simp [File.new] at h
  · rfl
  · simp [count_fn_entries, File.new, count_in_fnss]
  · rfl

/-! ## Per-operation preservation lemmas -/

/-- Expression conversion touches only the expression arena. -/
def ExprOnly (s t : CState) : Prop :=
  t.file.stmts = s.file.stmts ∧ t.file.vars = s.file.vars ∧
  t.file.scopes = s.file.scopes ∧ t.file.functions = s.file.functions ∧
  t.file.patch_stmts = s.file.patch_stmts ∧ t.raw_func_queue = s.raw_func_queue

theorem ExprOnly.eo_rfl (s : CState) : ExprOnly s s :=
  ⟨Eq.refl _, Eq.refl _, Eq.refl _, Eq.refl _, Eq.refl _, Eq.refl _⟩

theorem ExprOnly.eo_trans {a b c : CState} (h1 : ExprOnly a b) (h2 : ExprOnly b c) :
    ExprOnly a c := by
  obtain ⟨e1, v1, s1, f1, p1, q1⟩ := h1
  obtain ⟨e2, v2, s2, f2, p2, q2⟩ := h2
  exact ⟨e2.trans e1, v2.trans v1, s2.trans s1, f2.trans f1, p2.trans p1, q2.trans q1⟩

theorem ExprOnly.add_expr (s : CState) (e : MExpr) : ExprOnly s (add_expr_c s e).2 :=
  ⟨Eq.refl _, Eq.refl _, Eq.refl _, Eq.refl _, Eq.refl _, Eq.refl _⟩

theorem ExprOnly.stepOk {a b : CState} (h : ExprOnly a b) : StepOk a b := by
  obtain ⟨e1, v1, s1, f1, p1, _⟩ := h
  exact ⟨e1 ▸ ListExtends.ext_rfl _, v1 ▸ ListExtends.ext_rfl _, f1, p1,
    by rw [s1], fun i _ => by rw [s1]; exact ⟨Eq.refl _, Eq.refl _⟩, s1 ▸ FnsFrame.frame_rfl _⟩

theorem ExprOnly.invAll {a b : CState} (h : ExprOnly a b) (hi : InvAll a.file) :
    InvAll b.file := by
  obtain ⟨e1, v1, s1, f1, p1, _⟩ := h
  obtain ⟨i4, i5, i10, i6, ip⟩ := hi
  refine ⟨fun j v hj => ?_, fun i sc hsc => ?_, fun j n d v hj => ?_, fun g => ?_, ?_⟩
  · rw [e1] at hj
    rw [v1]
    exact i4 j v hj
  · rw [s1] at hsc
    exact i5 i sc hsc
  · rw [e1] at hj
    exact i10 j n d v hj
  · have hc : count_fn_entries b.file g = count_fn_entries a.file g := by
      unfold count_fn_entries
      rw [s1]
    rw [f1]
    exact ⟨fun hl => hc ▸ (i6 g).1 hl, hc ▸ (i6 g).2⟩
  · rw [p1]
    exact ip

mutual
theorem convert_expr_frame (s : CState) (e : PExpr) :
    ExprOnly s (convert_expr s e).2 := by
  cases e with
  | Operation left right op =>
    rcases h1 : convert_expr s left with ⟨i1, s1⟩
    rcases h2 : convert_expr s1 right with ⟨i2, s2⟩
    have e1 := convert_expr_frame s left
    have e2 := convert_expr_frame s1 right
    rw [h1] at e1
    rw [h2] at e2
    simp only [convert_expr, h1, h2]
    exact (e1.eo_trans e2).eo_trans (ExprOnly.add_expr _ _)
  | Field left name =>
    rcases h1 : convert_expr s left with ⟨i1, s1⟩
    have e1 := convert_expr_frame s left
    rw [h1] at e1
    simp only [convert_expr, h1]
    exact e1.eo_trans (ExprOnly.add_expr _ _)
  | Group list =>
    rcases h1 : convert_expr_list s list with ⟨is1, s1⟩
    have e1 := convert_expr_list_frame s list
    rw [h1] at e1
    simp only [convert_expr, h1]
    exact e1.eo_trans (ExprOnly.add_expr _ _)
  | Var name => exact ExprOnly.add_expr _ _
  | Number n => exact ExprOnly.add_expr _ _
  | String str => exact ExprOnly.add_expr _ _
  | Borrow inner =>
    rcases h1 : convert_expr s inner with ⟨i1, s1⟩
    have e1 := convert_expr_frame s inner
    rw [h1] at e1
    simp only [convert_expr, h1]
    exact e1.eo_trans (ExprOnly.add_expr _ _)
  | Deref inner =>
    rcases h1 : convert_expr s inner with ⟨i1, s1⟩
    have e1 := convert_expr_frame s inner
    rw [h1] at e1
    simp only [convert_expr, h1]
    exact e1.eo_trans (ExprOnly.add_expr _ _)
  | None => exact ExprOnly.add_expr _ _

theorem convert_expr_list_frame (s : CState) (list : List PExpr) :
    ExprOnly s (convert_expr_list s list).2 := by
  cases list with
  | nil => exact ExprOnly.eo_rfl s
  | cons e rest =>
    rcases h1 : convert_expr s e with ⟨i1, s1⟩
    rcases h2 : convert_expr_list s1 rest with ⟨is2, s2⟩
    have e1 := convert_expr_frame s e
    have e2 := convert_expr_list_frame s1 rest
    rw [h1] at e1
    rw [h2] at e2
    simp only [convert_expr_list, h1, h2]
    exact e1.eo_trans e2
end

theorem StepOk_add_stmt (s : CState) (m : MStmt) : StepOk s (add_stmt_c s m).2 :=
  ⟨ListExtends.of_append _ [m], ListExtends.ext_rfl _, Eq.refl _, Eq.refl _, Nat.le.refl,
   fun _ _ => ⟨Eq.refl _, Eq.refl _⟩, FnsFrame.frame_rfl _⟩

theorem StepOk_add_var (s : CState) (v : VarMetadata) : StepOk s (add_var_c s v).2 :=
  ⟨ListExtends.ext_rfl _, ListExtends.of_append _ [v], Eq.refl _, Eq.refl _, Nat.le.refl,
   fun _ _ => ⟨Eq.refl _, Eq.refl _⟩, FnsFrame.frame_rfl _⟩

theorem StepOk_add_scope (s : CState) (sc : Scope) (hsc : sc.functions = []) :
    StepOk s (add_scope_c s sc).2 := by
  refine ⟨ListExtends.ext_rfl _, ListExtends.ext_rfl _, Eq.refl _, Eq.refl _, by simp [add_scope_c, add_scope],
    fun i hi => ?_, ?_⟩
  · simp only [add_scope_c, add_scope]
    rw [List.get?_append hi]
    exact ⟨Eq.refl _, Eq.refl _⟩
  · exact ⟨[sc.functions], by simp [add_scope_c, add_scope], by simp [hsc]⟩

theorem StepOk_update_scope (s : CState) (i : ScopeIndex) (g : Scope → Scope)
    (hg : ∀ sc, (g sc).first = sc.first ∧ (g sc).last = sc.last ∧
      (g sc).functions = sc.functions) :
    StepOk s (update_scope s i g) := by
  refine ⟨ListExtends.ext_rfl _, ListExtends.ext_rfl _, Eq.refl _, Eq.refl _,
    by simp [update_scope, list_update_length], fun j hj => ?_, ?_⟩
  · simp only [update_scope]
    rw [list_update_get?]
    by_cases hij : i.idx = j
    · rw [if_pos hij]
      cases hx : s.file.scopes.get? j with
      | none => simp
      | some sc => simp [(hg sc).1, (hg sc).2.1]
    · rw [if_neg hij]
      exact ⟨Eq.refl _, Eq.refl _⟩
  · refine ⟨[], ?_, by simp⟩
    simp only [update_scope, List.append_nil]
    exact list_update_map _ _ _ _ (fun sc => (hg sc).2.2)

theorem StepOk_update_ge {s0 t : CState} (h : StepOk s0 t) (i : ScopeIndex)
    (g : Scope → Scope) (hi : s0.file.scopes.length ≤ i.idx)
    (hg : ∀ sc, (g sc).functions = sc.functions) :
    StepOk s0 (update_scope t i g) := by
  obtain ⟨h1, h2, h3, h4, h5, h6, h7⟩ := h
  refine ⟨h1, h2, h3, h4, by simp only [update_scope, list_update_length]; exact h5,
    fun j hj => ?_, ?_⟩
  · have hij : i.idx ≠ j := fun he => absurd hj (by omega)
    simp only [update_scope]
    rw [list_update_get?, if_neg hij]
    exact h6 j hj
  · obtain ⟨d, hd, hde⟩ := h7
    refine ⟨d, ?_, hde⟩
    simp only [update_scope]
    rw [list_update_map _ _ _ _ hg]
    exact hd

theorem StepOk_set_queue (s : CState) (q : List RawFunction) :
    StepOk s { s with raw_func_queue := q } := StepOk.step_rfl s

/-! Counting lemmas for `FnInv`. -/

theorem count_in_fnss_append (A B : List (List (Nat × List (Pattern × FunctionIndex))))
    (g : FunctionIndex) :
    count_in_fnss (A ++ B) g = count_in_fnss A g + count_in_fnss B g := by
  induction A with
  | nil => simp [count_in_fnss]
  | cons F rest ih => simp [count_in_fnss, ih]; omega

theorem count_in_fnss_all_empty (B : List (List (Nat × List (Pattern × FunctionIndex))))
    (hB : ∀ x ∈ B, x = []) (g : FunctionIndex) : count_in_fnss B g = 0 := by
  induction B with
  | nil => rfl
  | cons F rest ih =>
    have hF : F = [] := hB F (by simp)
    rw [hF]
    simp only [count_in_fnss, count_in_fns, Nat.zero_add]
    exact ih (fun x hx => hB x (by simp [hx]))

theorem FnsFrame.count_eq {s t : List Scope} (h : FnsFrame s t) (g : FunctionIndex) :
    count_in_fnss (t.map Scope.functions) g = count_in_fnss (s.map Scope.functions) g := by
  obtain ⟨d, hd, hde⟩ := h
  rw [hd, count_in_fnss_append, count_in_fnss_all_empty d hde, Nat.add_zero]

/-- `FnInv` rides along any `StepOk`-shaped step. -/
theorem FnInv_of_step {s t : CState} (h6 : FnInv s.file)
    (hfn : t.file.functions = s.file.functions)
    (hff : FnsFrame s.file.scopes t.file.scopes) : FnInv t.file := by
  intro g
  have hc : count_fn_entries t.file g = count_fn_entries s.file g := hff.count_eq g
  rw [hfn, hc]
  exact h6 g

/-- `InvAll` rides along a `StepOk` step provided the statements and
scopes that the step appended themselves respect the invariants, and the
variable table grew consistently.  This is the workhorse used case by
case below; the appended-parts obligations are discharged per
constructor. -/
theorem InvAll_add_stmt (s : CState) (m : MStmt) (hi : InvAll s.file)
    (hm1 : ∀ v, m ≠ .VarDef v)
    (hm2 : ∀ n d v, m = .VarSet n d v → v = VarIndex.invalid) :
    InvAll (add_stmt_c s m).2.file := by
  obtain ⟨i4, i5, i10, i6, ip⟩ := hi
  refine ⟨fun j v hj => ?_, i5, fun j n d v hj => ?_, i6, ip⟩
  · simp only [add_stmt_c, add_stmt] at hj
    rcases get?_concat_cases hj with h | ⟨_, he⟩
    · exact i4 j v h
    · exact absurd he.symm (hm1 v)
  · simp only [add_stmt_c, add_stmt] at hj
    rcases get?_concat_cases hj with h | ⟨_, he⟩
    · exact i10 j n d v h
    · exact hm2 n d v he.symm

/-- The `VarDef` arm: pushing the metadata (whose `definition` is the
pre-push `this_stmt_index`) and then the `VarDef` statement preserves
`InvAll`. -/
theorem InvAll_vardef (s : CState) (md : VarMetadata) (hi : InvAll s.file)
    (hd : md.definition = ⟨s.file.stmts.length - 1, 0⟩) :
    InvAll (add_stmt_c (add_var_c s md).2 (.VarDef (add_var_c s md).1)).2.file := by
  obtain ⟨i4, i5, i10, i6, ip⟩ := hi
  refine ⟨fun j v hj => ?_, i5, fun j n d v hj => ?_, i6, ip⟩
  · simp only [add_stmt_c, add_stmt, add_var_c, add_var] at hj ⊢
    rcases get?_concat_cases hj with h | ⟨hj2, he⟩
    · have h4 := i4 j v h
      rcases Option.map_eq_some'.mp h4 with ⟨md0, hmd0, hdef⟩
      have : (s.file.vars ++ [md]).get? v.idx = some md0 :=
        (ListExtends.of_append _ [md]).get? hmd0
      rw [this]
      simp [hdef]
    · have hv : v = ⟨s.file.vars.length⟩ := by
        injection he.symm with h
        exact h.symm
      subst hv hj2
      rw [List.get?_concat_length]
      simp [hd]
  · simp only [add_stmt_c, add_stmt, add_var_c, add_var] at hj
    rcases get?_concat_cases hj with h | ⟨_, he⟩
    · exact i10 j n d v h
    · cases he

/-- Scope creation at block entry: `first = last = next_stmt_index`,
empty tables. -/
theorem InvAll_add_scope (s : CState) (sc : Scope) (hi : InvAll s.file)
    (hr : sc.first.root ≤ sc.last.root + 1 ∧ sc.first.patch = 0 ∧ sc.last.patch = 0)
    (hf : sc.functions = []) :
    InvAll (add_scope_c s sc).2.file := by
  obtain ⟨i4, i5, i10, i6, ip⟩ := hi
  refine ⟨i4, fun i sc0 hsc => ?_, i10, ?_, ip⟩
  · simp only [add_scope_c, add_scope] at hsc
    rcases get?_concat_cases hsc with h | ⟨_, he⟩
    · exact i5 i sc0 h
    · rw [he]
      exact hr
  · exact FnInv_of_step i6 (Eq.refl _)
      ((StepOk_add_scope s sc hf).2.2.2.2.2.2)

/-- Field updates that keep `first`, `last` and `functions` (the `vars`
and child-`scopes` bookkeeping of the fold) preserve `InvAll`. -/
theorem InvAll_update_scope (s : CState) (i : ScopeIndex) (g : Scope → Scope)
    (hi : InvAll s.file)
    (hg : ∀ sc, (g sc).first = sc.first ∧ (g sc).last = sc.last ∧
      (g sc).functions = sc.functions) :
    InvAll (update_scope s i g).file := by
  obtain ⟨i4, i5, i10, i6, ip⟩ := hi
  refine ⟨i4, fun j sc0 hsc => ?_, i10, ?_, ip⟩
  · simp only [update_scope] at hsc
    rw [list_update_get?] at hsc
    by_cases hij : i.idx = j
    · rw [if_pos hij] at hsc
      rcases Option.map_eq_some'.mp hsc with ⟨sc1, hsc1, hg1⟩
      have h5 := i5 j sc1 hsc1
      rw [← hg1, (hg sc1).1, (hg sc1).2.1]
      exact h5
    · rw [if_neg hij] at hsc
      exact i5 j sc0 hsc
  · exact FnInv_of_step i6 (Eq.refl _)
      ((StepOk_update_scope s i g hg).2.2.2.2.2.2)

/-- The end-of-block `scope.last` assignment: sound as long as the
scope's recorded `first` slot does not exceed the current arena length. -/
theorem InvAll_set_last (t : CState) (i : ScopeIndex) (n0 npr : Nat)
    (hi : InvAll t.file)
    (hf : (t.file.scopes.get? i.idx).map Scope.first = some ⟨n0, 0⟩)
    (hle : n0 ≤ npr) :
    InvAll (update_scope t i (fun sc => { sc with last := ⟨npr - 1, 0⟩ })).file := by
  obtain ⟨i4, i5, i10, i6, ip⟩ := hi
  refine ⟨i4, fun j sc0 hsc => ?_, i10, ?_, ip⟩
  · simp only [update_scope] at hsc
    rw [list_update_get?] at hsc
    by_cases hij : i.idx = j
    · rw [if_pos hij] at hsc
      rcases Option.map_eq_some'.mp hsc with ⟨sc1, hsc1, hg1⟩
      have hfirst : sc1.first = ⟨n0, 0⟩ := by
        rw [hij] at hf
        rw [hsc1] at hf
        exact Option.some_inj.mp hf
      rw [← hg1]
      refine ⟨?_, ?_, Eq.refl _⟩
      · show sc1.first.root ≤ npr - 1 + 1
        rw [hfirst]
        show n0 ≤ npr - 1 + 1
        omega
      · show sc1.first.patch = 0
        rw [hfirst]
    · rw [if_neg hij] at hsc
      exact i5 j sc0 hsc
  · refine FnInv_of_step i6 (Eq.refl _) ⟨[], ?_, by simp⟩
    simp only [update_scope, List.append_nil]
    exact list_update_map _ _ _ _ (fun sc => Eq.refl _)

/-- The scope record allocated at block entry. -/
def block_scope (s : CState) : Scope :=
  { first := next_stmt_index s, last := next_stmt_index s
    functions := [], scopes := [], stack_slots := 0, vars := [] }

/-- Definitional decomposition of `convert_block` used to reason about
its stages. -/
theorem convert_block_decomp (s : CState) (stmts : List PStmt) :
    convert_block s (.mk stmts) =
      (let s1 := (add_scope_c s (block_scope s)).2
       let si : ScopeIndex := ⟨s.file.scopes.length⟩
       let r := convert_block_fold s1 si stmts []
       let t := update_scope r.2 si (fun sc => { sc with last := this_stmt_index r.2 })
       (⟨next_stmt_index s1, this_stmt_index r.2, si⟩,
        { t with raw_func_queue := t.raw_func_queue ++ r.1 })) := rfl

mutual

theorem convert_stmt_ok (s : CState) (scope : ScopeIndex) (stmt : PStmt)
    (h : InvAll s.file) :
    StepOk s (convert_stmt s scope stmt).2 ∧ InvAll (convert_stmt s scope stmt).2.file := by
  cases stmt with
  | FunctionDef is_proc name pattern block =>
    exact ⟨StepOk.step_rfl s, h⟩
  | VarDef mutable name data =>
    cases data with
    | none =>
      simp only [convert_stmt]
      exact ⟨(StepOk_add_var _ _).step_trans (StepOk_add_stmt _ _),
        InvAll_vardef s _ h (Eq.refl _)⟩
    | some d =>
      rcases hE : convert_expr s d with ⟨i1, s1⟩
      have eo := convert_expr_frame s d
      rw [hE] at eo
      simp only [convert_stmt, hE]
      exact ⟨(eo.stepOk.step_trans (StepOk_add_var _ _)).step_trans (StepOk_add_stmt _ _),
        InvAll_vardef s1 _ (eo.invAll h) (Eq.refl _)⟩
  | VarSet name data =>
    rcases hE : convert_expr s data with ⟨i1, s1⟩
    have eo := convert_expr_frame s data
    rw [hE] at eo
    simp only [convert_stmt, hE]
    refine ⟨eo.stepOk.step_trans (StepOk_add_stmt _ _),
      InvAll_add_stmt s1 _ (eo.invAll h) (fun v hv => by cases hv) ?_⟩
    intro n d v hv
    injection hv with h1 h2 h3
    exact h3.symm
  | IfElse condition block dflt =>
    rcases hE : convert_expr s condition with ⟨c1, s1⟩
    have eo := convert_expr_frame s condition
    rw [hE] at eo
    rcases hB : convert_block s1 block with ⟨b1, s2⟩
    have ib := convert_block_ok s1 block (eo.invAll h)
    rw [hB] at ib
    cases dflt with
    | none =>
      simp only [convert_stmt, hE, hB]
      exact ⟨((eo.stepOk.step_trans ib.1).step_trans (StepOk_add_stmt _ _)),
        InvAll_add_stmt s2 _ ib.2 (fun v hv => by cases hv) (fun n d v hv => by cases hv)⟩
    | some eb =>
      rcases hB2 : convert_block s2 eb with ⟨b2, s3⟩
      have ib2 := convert_block_ok s2 eb ib.2
      rw [hB2] at ib2
      simp only [convert_stmt, hE, hB, hB2]
      exact ⟨(((eo.stepOk.step_trans ib.1).step_trans ib2.1).step_trans (StepOk_add_stmt _ _)),
        InvAll_add_stmt s3 _ ib2.2 (fun v hv => by cases hv) (fun n d v hv => by cases hv)⟩
  | Conditional conditions actions =>
    rcases hE : convert_expr_list s conditions with ⟨cs1, s1⟩
    have eo := convert_expr_list_frame s conditions
    rw [hE] at eo
    rcases hA : convert_actions s1 actions with ⟨acts1, rest1⟩
    rcases rest1 with ⟨scps1, s2⟩
    have ia := convert_actions_ok s1 actions (eo.invAll h)
    rw [hA] at ia
    simp only [convert_stmt, hE, hA]
    exact ⟨((eo.stepOk.step_trans ia.1).step_trans (StepOk_add_stmt _ _)),
      InvAll_add_stmt s2 _ ia.2 (fun v hv => by cases hv) (fun n d v hv => by cases hv)⟩
  | Scope block =>
    rcases hB : convert_block s block with ⟨b1, s1⟩
    have ib := convert_block_ok s block h
    rw [hB] at ib
    simp only [convert_stmt, hB]
    exact ⟨ib.1, ib.2⟩
  | Disown e =>
    rcases hE : convert_expr s e with ⟨i1, s1⟩
    have eo := convert_expr_frame s e
    rw [hE] at eo
    simp only [convert_stmt, hE]
    exact ⟨eo.stepOk.step_trans (StepOk_add_stmt _ _),
      InvAll_add_stmt s1 _ (eo.invAll h) (fun v hv => by cases hv) (fun n d v hv => by cases hv)⟩
  | Return opt =>
    cases opt with
    | none =>
      simp only [convert_stmt]
      exact ⟨StepOk_add_stmt _ _,
        InvAll_add_stmt s _ h (fun v hv => by cases hv) (fun n d v hv => by cases hv)⟩
    | some e0 =>
      rcases hE : convert_expr s e0 with ⟨i1, s1⟩
      have eo := convert_expr_frame s e0
      rw [hE] at eo
      simp only [convert_stmt, hE]
      exact ⟨eo.stepOk.step_trans (StepOk_add_stmt _ _),
        InvAll_add_stmt s1 _ (eo.invAll h) (fun v hv => by cases hv) (fun n d v hv => by cases hv)⟩
  | Expr e =>
    rcases hE : convert_expr s e with ⟨i1, s1⟩
    have eo := convert_expr_frame s e
    rw [hE] at eo
    simp only [convert_stmt, hE]
    exact ⟨eo.stepOk.step_trans (StepOk_add_stmt _ _),
      InvAll_add_stmt s1 _ (eo.invAll h) (fun v hv => by cases hv) (fun n d v hv => by cases hv)⟩

theorem convert_actions_ok (s : CState) (acts : List PConditionalAction)
    (h : InvAll s.file) :
    StepOk s (convert_actions s acts).2.2 ∧ InvAll (convert_actions s acts).2.2.file := by
  cases acts with
  | nil => exact ⟨StepOk.step_rfl s, h⟩
  | cons a rest =>
    cases a with
    | Expr e =>
      rcases hE : convert_expr s e with ⟨i1, s1⟩
      have eo := convert_expr_frame s e
      rw [hE] at eo
      rcases hA : convert_actions s1 rest with ⟨acts1, rest1⟩
      rcases rest1 with ⟨scps1, s2⟩
      have ia := convert_actions_ok s1 rest (eo.invAll h)
      rw [hA] at ia
      simp only [convert_actions, hE, hA]
      exact ⟨eo.stepOk.step_trans ia.1, ia.2⟩
    | Scope b =>
      rcases hB : convert_block s b with ⟨mb, s1⟩
      have ib := convert_block_ok s b h
      rw [hB] at ib
      rcases hA : convert_actions s1 rest with ⟨acts1, rest1⟩
      rcases rest1 with ⟨scps1, s2⟩
      have ia := convert_actions_ok s1 rest ib.2
      rw [hA] at ia
      simp only [convert_actions, hB, hA]
      exact ⟨ib.1.step_trans ia.1, ia.2⟩

theorem convert_block_ok (s : CState) (b : PBlock) (h : InvAll s.file) :
    StepOk s (convert_block s b).2 ∧ InvAll (convert_block s b).2.file := by
  cases b with
  | mk stmts =>
    rw [convert_block_decomp]
    have hstep1 : StepOk s (add_scope_c s (block_scope s)).2 :=
      StepOk_add_scope s (block_scope s) (Eq.refl _)
    have hinv1 : InvAll (add_scope_c s (block_scope s)).2.file := by
      refine InvAll_add_scope s (block_scope s) h ⟨?_, Eq.refl _, Eq.refl _⟩ (Eq.refl _)
      show s.file.stmts.length ≤ s.file.stmts.length + 1
      omega
    rcases hF : convert_block_fold (add_scope_c s (block_scope s)).2
        ⟨s.file.scopes.length⟩ stmts [] with ⟨fns, s2⟩
    have ihF := convert_block_fold_ok (add_scope_c s (block_scope s)).2
      ⟨s.file.scopes.length⟩ stmts [] hinv1
    rw [hF] at ihF
    simp only [hF]
    -- the created scope still has `first = ⟨n₀, 0⟩` after the fold
    have hsc1 : ((add_scope_c s (block_scope s)).2.file.scopes.get?
        s.file.scopes.length).map Scope.first = some ⟨s.file.stmts.length, 0⟩ := by
      simp only [add_scope_c, add_scope]
      rw [List.get?_concat_length]
      exact Eq.refl _
    have hlen1 : s.file.scopes.length <
        (add_scope_c s (block_scope s)).2.file.scopes.length := by
      simp [add_scope_c, add_scope]
    have hsc2 : (s2.file.scopes.get? s.file.scopes.length).map Scope.first
        = some ⟨s.file.stmts.length, 0⟩ := by
      have := (ihF.1.2.2.2.2.2.1 s.file.scopes.length hlen1).1
      rw [this, hsc1]
    have hle2 : s.file.stmts.length ≤ s2.file.stmts.length := by
      have h1 := ihF.1.1.length_le
      simpa [add_scope_c, add_scope] using h1
    have hinvT : InvAll (update_scope s2 ⟨s.file.scopes.length⟩
        (fun sc => { sc with last := this_stmt_index s2 })).file :=
      InvAll_set_last s2 ⟨s.file.scopes.length⟩ s.file.stmts.length
        s2.file.stmts.length ihF.2 hsc2 hle2
    have hstepT : StepOk s (update_scope s2 ⟨s.file.scopes.length⟩
        (fun sc => { sc with last := this_stmt_index s2 })) :=
      StepOk_update_ge (hstep1.step_trans ihF.1) ⟨s.file.scopes.length⟩ _
        Nat.le.refl (fun sc => Eq.refl _)
    exact ⟨hstepT, hinvT⟩

theorem convert_block_fold_ok (s : CState) (si : ScopeIndex) (stmts : List PStmt)
    (fns : List RawFunction) (h : InvAll s.file) :
    StepOk s (convert_block_fold s si stmts fns).2 ∧
    InvAll (convert_block_fold s si stmts fns).2.file := by
  cases stmts with
  | nil => exact ⟨StepOk.step_rfl s, h⟩
  | cons stmt rest =>
    rcases hS : convert_stmt s si stmt with ⟨ret, s1⟩
    have is1 := convert_stmt_ok s si stmt h
    rw [hS] at is1
    cases hv : ret.var with
    | none =>
      have h2 : InvAll (update_scope s1 si
          (fun sc => { sc with scopes := sc.scopes ++ ret.scopes })).file :=
        InvAll_update_scope s1 si _ is1.2 (fun sc => ⟨Eq.refl _, Eq.refl _, Eq.refl _⟩)
      have step2 : StepOk s (update_scope s1 si
          (fun sc => { sc with scopes := sc.scopes ++ ret.scopes })) :=
        is1.1.step_trans (StepOk_update_scope s1 si _
          (fun sc => ⟨Eq.refl _, Eq.refl _, Eq.refl _⟩))
      cases hf : ret.function with
      | none =>
        have IH := convert_block_fold_ok (update_scope s1 si
          (fun sc => { sc with scopes := sc.scopes ++ ret.scopes })) si rest fns h2
        simp only [convert_block_fold, hS, hv, hf]
        exact ⟨step2.step_trans IH.1, IH.2⟩
      | some fn =>
        have IH := convert_block_fold_ok (update_scope s1 si
          (fun sc => { sc with scopes := sc.scopes ++ ret.scopes })) si rest (fns ++ [fn]) h2
        simp only [convert_block_fold, hS, hv, hf]
        exact ⟨step2.step_trans IH.1, IH.2⟩
    | some p =>
      rcases p with ⟨name, index⟩
      have h1v : InvAll (update_scope s1 si
          (fun sc => { sc with vars := vars_push sc.vars name index })).file :=
        InvAll_update_scope s1 si _ is1.2 (fun sc => ⟨Eq.refl _, Eq.refl _, Eq.refl _⟩)
      have step1v : StepOk s (update_scope s1 si
          (fun sc => { sc with vars := vars_push sc.vars name index })) :=
        is1.1.step_trans (StepOk_update_scope s1 si _
          (fun sc => ⟨Eq.refl _, Eq.refl _, Eq.refl _⟩))
      have h2 : InvAll (update_scope (update_scope s1 si
          (fun sc => { sc with vars := vars_push sc.vars name index })) si
          (fun sc => { sc with scopes := sc.scopes ++ ret.scopes })).file :=
        InvAll_update_scope _ si _ h1v (fun sc => ⟨Eq.refl _, Eq.refl _, Eq.refl _⟩)
      have step2 : StepOk s (update_scope (update_scope s1 si
          (fun sc => { sc with vars := vars_push sc.vars name index })) si
          (fun sc => { sc with scopes := sc.scopes ++ ret.scopes })) :=
        step1v.step_trans (StepOk_update_scope _ si _
          (fun sc => ⟨Eq.refl _, Eq.refl _, Eq.refl _⟩))
      cases hf : ret.function with
      | none =>
        have IH := convert_block_fold_ok (update_scope (update_scope s1 si
          (fun sc => { sc with vars := vars_push sc.vars name index })) si
          (fun sc => { sc with scopes := sc.scopes ++ ret.scopes })) si rest fns h2
        simp only [convert_block_fold, hS, hv, hf]
        exact ⟨step2.step_trans IH.1, IH.2⟩
      | some fn =>
        have IH := convert_block_fold_ok (update_scope (update_scope s1 si
          (fun sc => { sc with vars := vars_push sc.vars name index })) si
          (fun sc => { sc with scopes := sc.scopes ++ ret.scopes })) si rest (fns ++ [fn]) h2
        simp only [convert_block_fold, hS, hv, hf]
        exact ⟨step2.step_trans IH.1, IH.2⟩

end

/-! ## Invariance of the drain loop -/

theorem count_in_pats_insert_le (l : List (Pattern × FunctionIndex)) (k : Pattern)
    (v g : FunctionIndex) :
    count_in_pats (pats_insert l k v) g ≤
      count_in_pats l g + (if v = g then 1 else 0) := by
  induction l with
  | nil =>
    simp only [pats_insert, count_in_pats]
    omega
  | cons e rest ih =>
    by_cases hb : pattern_beq e.1 k
    · simp only [pats_insert, if_pos hb, count_in_pats]
      have h1 : (0:Nat) ≤ if e.2 = g then 1 else 0 := Nat.zero_le _
      by_cases h2 : v = g <;> by_cases h3 : e.2 = g <;> simp [h2, h3] <;> omega
    · simp only [pats_insert, if_neg hb, count_in_pats]
      have := ih
      omega

theorem count_in_fns_insert_le (m : List (Nat × List (Pattern × FunctionIndex)))
    (name : Nat) (k : Pattern) (v g : FunctionIndex) :
    count_in_fns (fns_insert m name k v) g ≤
      count_in_fns m g + (if v = g then 1 else 0) := by
  induction m with
  | nil =>
    simp only [fns_insert, count_in_fns, pats_insert, count_in_pats]
    omega
  | cons e rest ih =>
    by_cases he : e.1 = name
    · simp only [fns_insert, if_pos he, count_in_fns]
      have := count_in_pats_insert_le e.2 k v g
      omega
    · simp only [fns_insert, if_neg he, count_in_fns]
      omega

theorem count_list_update_le (l : List Scope) (i : Nat) (g' : Scope → Scope)
    (fi : FunctionIndex) (c : Nat)
    (hg : ∀ sc, count_in_fns (g' sc).functions fi ≤ count_in_fns sc.functions fi + c) :
    count_in_fnss ((list_update l i g').map Scope.functions) fi ≤
      count_in_fnss (l.map Scope.functions) fi + c := by
  induction l generalizing i with
  | nil => simp [list_update]
  | cons x rest ih =>
    cases i with
    | zero =>
      simp only [list_update, List.map_cons, count_in_fnss]
      have := hg x
      omega
    | succ i2 =>
      simp only [list_update, List.map_cons, count_in_fnss]
      have := ih i2
      omega

/-- Registering a freshly lowered function in its owning scope's
dispatch table preserves the at-most-one invariant: the inserted index
is fresh (so previously unreferenced), and an insert adds at most one
reference to it while never increasing any other index's count. -/
theorem FnInv_insert (s1 : CState) (owning : ScopeIndex) (name : Nat) (pat : Pattern)
    (fd : FunctionDef) (h6 : FnInv s1.file) :
    FnInv (update_scope (add_function_c s1 fd).2 owning
      (fun sc =>
        { sc with functions := fns_insert sc.functions name pat ⟨s1.file.functions.length⟩ })).file := by
  intro g
  have hcount : count_fn_entries (update_scope (add_function_c s1 fd).2 owning
      (fun sc =>
        { sc with functions := fns_insert sc.functions name pat ⟨s1.file.functions.length⟩ })).file g ≤
      count_fn_entries s1.file g +
        (if (⟨s1.file.functions.length⟩ : FunctionIndex) = g then 1 else 0) := by
    unfold count_fn_entries
    exact count_list_update_le _ _ _ g _
      (fun sc => count_in_fns_insert_le sc.functions name pat _ g)
  have hlen : (update_scope (add_function_c s1 fd).2 owning
      (fun sc =>
        { sc with functions := fns_insert sc.functions name pat ⟨s1.file.functions.length⟩ })).file.functions.length
      = s1.file.functions.length + 1 := by
    simp [update_scope, add_function_c, add_function]
  constructor
  · intro hge
    rw [hlen] at hge
    have hne : (⟨s1.file.functions.length⟩ : FunctionIndex) ≠ g := by
      intro he
      rw [← he] at hge
      simp at hge
    have h0 : count_fn_entries s1.file g = 0 :=
      (h6 g).1 (by omega)
    rw [if_neg hne] at hcount
    omega
  · by_cases he : (⟨s1.file.functions.length⟩ : FunctionIndex) = g
    · have h0 : count_fn_entries s1.file g = 0 := by
        rw [← he]
        exact (h6 _).1 Nat.le.refl
      rw [if_pos he] at hcount
      omega
    · rw [if_neg he] at hcount
      have := (h6 g).2
      omega

theorem convert_function_invAll (s : CState) (func : RawFunction)
    (hi : InvAll s.file) : InvAll (convert_function s func).file := by
  rcases hB : convert_block s func.block with ⟨blk, s1⟩
  have ib := convert_block_ok s func.block hi
  rw [hB] at ib
  simp only [convert_function, hB]
  obtain ⟨i4, i5, i10, i6, ip⟩ := ib.2
  refine ⟨fun j v hj => i4 j v hj, fun i sc hsc => ?_, fun j n d v hj => i10 j n d v hj,
    ?_, ip⟩
  · simp only [update_scope, add_function_c, add_function] at hsc
    rw [list_update_get?] at hsc
    by_cases hij : func.owning_scope.idx = i
    · rw [if_pos hij] at hsc
      rcases Option.map_eq_some'.mp hsc with ⟨sc1, hsc1, hg1⟩
      have h5 := i5 i sc1 hsc1
      rw [← hg1]
      exact h5
    · rw [if_neg hij] at hsc
      exact i5 i sc hsc
  · exact FnInv_insert s1 func.owning_scope func.name func.pattern _ i6

theorem drain_invAll (fuel : Nat) (s : CState) (h : InvAll s.file) :
    InvAll (drain fuel s) := by
  induction fuel generalizing s with
  | zero => exact h
  | succ f ih =>
    rw [drain]
    cases hq : pop_queue s.raw_func_queue with
    | none => exact h
    | some p =>
      rcases p with ⟨func, rest⟩
      exact ih _ (convert_function_invAll { s with raw_func_queue := rest } func h)

theorem convert_parse_tree_invAll (stmts : List PStmt) :
    InvAll (convert_parse_tree stmts) := by
  rcases hB : convert_block { file := File.new, raw_func_queue := [] } (.mk stmts)
    with ⟨blk, s1⟩
  have ib := convert_block_ok { file := File.new, raw_func_queue := [] } (.mk stmts)
    InvAll_new
  rw [hB] at ib
  simp only [convert_parse_tree, hB]
  exact drain_invAll _ _ ib.2

/-! ## Claims about the lowering pass -/

/-- C4 amended.  For every variable definition lowered by
`convert_parse_tree`, the recorded `VarMetadata.definition` is the
`StmtIndex` whose root is ONE LESS (saturating at zero) than the slot of
the `Stmt::VarDef` emitted for it — `this_stmt_index` is taken before
the push — so it equals the `VarDef`'s own index only when that index is
0. -/
theorem C4_vardef_definition (stmts : List PStmt) (j : Nat) (v : VarIndex)
    (hj : (convert_parse_tree stmts).stmts.get? j = some (.VarDef v)) :
    ((convert_parse_tree stmts).vars.get? v.idx).map VarMetadata.definition =
      some ⟨j - 1, 0⟩ :=
  (convert_parse_tree_invAll stmts).1 j v hj

/-- C4 witness: the second of two `let` definitions sits at statement
slot 1 but its metadata records definition slot 0. -/
theorem C4_vardef_definition_witness :
    ((convert_parse_tree [.VarDef false 0 Option.none,
      .VarDef false 1 Option.none]).vars.get? 1).map VarMetadata.definition =
      some ⟨1 - 1, 0⟩ :=
  C4_vardef_definition [.VarDef false 0 Option.none, .VarDef false 1 Option.none] 1 ⟨1⟩ rfl

/-- C5 amended.  After `convert_parse_tree`, every scope satisfies
`first.root ≤ last.root + 1` (both with patch 0): `first ≤ last` holds
whenever the scope emitted at least one statement, while a scope that
emitted none gets `last = first - 1` — one slot BEFORE `first`, which is
a shared sentinel (both 0) only when the arena was empty at block
entry. -/
theorem C5_scope_range (stmts : List PStmt) (i : Nat) (sc : Scope)
    (hsc : (convert_parse_tree stmts).scopes.get? i = some sc) :
    sc.first.root ≤ sc.last.root + 1 ∧ sc.first.patch = 0 ∧ sc.last.patch = 0 :=
  (convert_parse_tree_invAll stmts).2.1 i sc hsc

/-- C5 witness: the root scope of the empty file. -/
theorem C5_scope_range_witness :
    (⟨0, 0⟩ : StmtIndex).root ≤ (⟨0, 0⟩ : StmtIndex).root + 1 ∧
    (⟨0, 0⟩ : StmtIndex).patch = 0 ∧ (⟨0, 0⟩ : StmtIndex).patch = 0 :=
  C5_scope_range [] 0
    { first := ⟨0, 0⟩, last := ⟨0, 0⟩, stack_slots := 0
      vars := [], functions := [], scopes := [] } rfl

/-- C6 amended.  Every `FunctionDef` is reachable from AT MOST one
`Scope.functions` entry (each insert stores a fresh index, and an insert
replaces the value of a `pattern_beq`-equal key); duplicate-pattern
overloads leave the overwritten `FunctionDef` reachable from zero
entries, so "exactly one" fails. -/
theorem C6_at_most_one (stmts : List PStmt) (g : FunctionIndex) :
    count_fn_entries (convert_parse_tree stmts) g ≤ 1 :=
  ((convert_parse_tree_invAll stmts).2.2.2.1 g).2

/-- C10.  Initial lowering never resolves a `VarSet`'s variable
reference: every `Stmt::VarSet` stored in the `File` (the statement
patch table is empty, so all statements live in the root vector) carries
the all-ones sentinel `VarIndex::invalid()`. -/
theorem C10_varset_invalid (stmts : List PStmt) :
    (convert_parse_tree stmts).patch_stmts = [] ∧
    ∀ j name d v, (convert_parse_tree stmts).stmts.get? j =
      some (.VarSet name d v) → v = VarIndex.invalid :=
  ⟨(convert_parse_tree_invAll stmts).2.2.2.2,
   fun j name d v hj => (convert_parse_tree_invAll stmts).2.2.1 j name d v hj⟩

/-- C10 witness: a lowered `set` statement carries the sentinel. -/
theorem C10_varset_invalid_witness :
    (convert_parse_tree [.VarSet 0 (.Number 1)]).stmts.get? 0 =
      some (.VarSet 0 ⟨0, 0⟩ VarIndex.invalid) ∧
    VarIndex.invalid = VarIndex.invalid :=
  ⟨rfl, (C10_varset_invalid [.VarSet 0 (.Number 1)]).2 0 0 ⟨0, 0⟩ VarIndex.invalid rfl⟩

/-! ## Sufficiency of the drain fuel

`drain` is given `queue_size + 1` steps of fuel.  The lemmas below prove
that this always runs the worklist loop to completion (the fuel-out
branch is unreachable): converting one statement enqueues bodies whose
total size stays strictly below the statement's own size, so each `pop`
strictly shrinks the total queued size.
-/

def fn_size : Option RawFunction → Nat
  | Option.none => 0
  | some f => psize_block f.block

theorem add_stmt_c_queue (s : CState) (m : MStmt) :
    (add_stmt_c s m).2.raw_func_queue = s.raw_func_queue := Eq.refl _

theorem add_var_c_queue (s : CState) (v : VarMetadata) :
    (add_var_c s v).2.raw_func_queue = s.raw_func_queue := Eq.refl _

theorem add_scope_c_queue (s : CState) (sc : Scope) :
    (add_scope_c s sc).2.raw_func_queue = s.raw_func_queue := Eq.refl _

theorem update_scope_queue (s : CState) (i : ScopeIndex) (g : Scope → Scope) :
    (update_scope s i g).raw_func_queue = s.raw_func_queue := Eq.refl _

theorem queue_size_append (a b : List RawFunction) :
    queue_size (a ++ b) = queue_size a + queue_size b := by
  induction a with
  | nil => simp [queue_size]
  | cons f rest ih =>
    show queue_size (f :: (rest ++ b)) = queue_size (f :: rest) + queue_size b
    simp only [queue_size]
    rw [ih]
    omega

theorem pop_queue_size (q : List RawFunction) (f : RawFunction) (rest : List RawFunction)
    (h : pop_queue q = some (f, rest)) :
    queue_size q = psize_block f.block + queue_size rest := by
  induction q generalizing rest with
  | nil => cases h
  | cons g q2 ih =>
    cases q2 with
    | nil =>
      simp only [pop_queue] at h
      injection h with h2
      injection h2 with hf hr
      subst hf
      subst hr
      simp only [queue_size]
      all_goals omega
    | cons g2 q3 =>
      simp only [pop_queue] at h
      cases hp : pop_queue (g2 :: q3) with
      | none => rw [hp] at h; cases h
      | some p =>
        rcases p with ⟨f2, rest2⟩
        rw [hp] at h
        injection h with h2
        injection h2 with hf hr
        subst hf
        subst hr
        have hq := ih rest2 hp
        simp only [queue_size] at hq ⊢
        all_goals omega

mutual

theorem convert_stmt_queue (s : CState) (scope : ScopeIndex) (stmt : PStmt) :
    queue_size (convert_stmt s scope stmt).2.raw_func_queue +
      fn_size (convert_stmt s scope stmt).1.function + 1 ≤
    queue_size s.raw_func_queue + psize_stmt stmt := by
  cases stmt with
  | FunctionDef is_proc name pattern block =>
    simp only [convert_stmt, fn_size, psize_stmt]
    all_goals omega
  | VarDef mutable name data =>
    cases data with
    | none =>
      simp only [convert_stmt, fn_size, psize_stmt, add_stmt_c, add_stmt,
        add_var_c, add_var]
      all_goals omega
    | some d =>
      rcases hE : convert_expr s d with ⟨i1, s1⟩
      have eo := convert_expr_frame s d
      simp only [hE] at eo
      simp only [convert_stmt, hE, fn_size, psize_stmt, add_stmt_c, add_stmt,
        add_var_c, add_var, eo.2.2.2.2.2]
      all_goals omega
  | VarSet name data =>
    rcases hE : convert_expr s data with ⟨i1, s1⟩
    have eo := convert_expr_frame s data
    simp only [hE] at eo
    simp only [convert_stmt, hE, fn_size, psize_stmt, add_stmt_c, add_stmt,
      eo.2.2.2.2.2]
    all_goals omega
  | IfElse condition block dflt =>
    rcases hE : convert_expr s condition with ⟨c1, s1⟩
    have eo := convert_expr_frame s condition
    simp only [hE] at eo
    rcases hB : convert_block s1 block with ⟨b1, s2⟩
    have qb := convert_block_queue s1 block
    simp only [hB] at qb
    rw [eo.2.2.2.2.2] at qb
    cases dflt with
    | none =>
      simp only [convert_stmt, hE, hB, fn_size, psize_stmt, add_stmt_c, add_stmt]
      all_goals omega
    | some eb =>
      rcases hB2 : convert_block s2 eb with ⟨b2, s3⟩
      have qb2 := convert_block_queue s2 eb
      simp only [hB2] at qb2
      simp only [convert_stmt, hE, hB, hB2, fn_size, psize_stmt, add_stmt_c, add_stmt]
      all_goals omega
  | Conditional conditions actions =>
    rcases hE : convert_expr_list s conditions with ⟨cs1, s1⟩
    have eo := convert_expr_list_frame s conditions
    simp only [hE] at eo
    rcases hA : convert_actions s1 actions with ⟨acts1, rest1⟩
    rcases rest1 with ⟨scps1, s2⟩
    have qa := convert_actions_queue s1 actions
    simp only [hA] at qa
    rw [eo.2.2.2.2.2] at qa
    simp only [convert_stmt, hE, hA, fn_size, psize_stmt, add_stmt_c, add_stmt]
    all_goals omega
  | Scope block =>
    rcases hB : convert_block s block with ⟨b1, s1⟩
    have qb := convert_block_queue s block
    simp only [hB] at qb
    simp only [convert_stmt, hB, fn_size, psize_stmt]
    all_goals omega
  | Disown e =>
    rcases hE : convert_expr s e with ⟨i1, s1⟩
    have eo := convert_expr_frame s e
    simp only [hE] at eo
    simp only [convert_stmt, hE, fn_size, psize_stmt, add_stmt_c, add_stmt,
      eo.2.2.2.2.2]
    all_goals omega
  | Return opt =>
    cases opt with
    | none =>
      simp only [convert_stmt, fn_size, psize_stmt, add_stmt_c, add_stmt]
      all_goals omega
    | some e0 =>
      rcases hE : convert_expr s e0 with ⟨i1, s1⟩
      have eo := convert_expr_frame s e0
      simp only [hE] at eo
      simp only [convert_stmt, hE, fn_size, psize_stmt, add_stmt_c, add_stmt,
        eo.2.2.2.2.2]
      all_goals omega
  | Expr e =>
    rcases hE : convert_expr s e with ⟨i1, s1⟩
    have eo := convert_expr_frame s e
    simp only [hE] at eo
    simp only [convert_stmt, hE, fn_size, psize_stmt, add_stmt_c, add_stmt,
      eo.2.2.2.2.2]
    all_goals omega

theorem convert_actions_queue (s : CState) (acts : List PConditionalAction) :
    queue_size (convert_actions s acts).2.2.raw_func_queue ≤
      queue_size s.raw_func_queue + psize_acts acts := by
  cases acts with
  | nil =>
    simp only [convert_actions, psize_acts]
    all_goals omega
  | cons a rest =>
    cases a with
    | Expr e =>
      rcases hE : convert_expr s e with ⟨i1, s1⟩
      have eo := convert_expr_frame s e
      simp only [hE] at eo
      rcases hA : convert_actions s1 rest with ⟨acts1, rest1⟩
      rcases rest1 with ⟨scps1, s2⟩
      have qa := convert_actions_queue s1 rest
      simp only [hA] at qa
      rw [eo.2.2.2.2.2] at qa
      simp only [convert_actions, hE, hA, psize_acts]
      all_goals omega
    | Scope b =>
      rcases hB : convert_block s b with ⟨mb, s1⟩
      have qb := convert_block_queue s b
      simp only [hB] at qb
      rcases hA : convert_actions s1 rest with ⟨acts1, rest1⟩
      rcases rest1 with ⟨scps1, s2⟩
      have qa := convert_actions_queue s1 rest
      simp only [hA] at qa
      simp only [convert_actions, hB, hA, psize_acts]
      all_goals omega

theorem convert_block_queue (s : CState) (b : PBlock) :
    queue_size (convert_block s b).2.raw_func_queue + 1 ≤
      queue_size s.raw_func_queue + psize_block b := by
  cases b with
  | mk stmts =>
    rw [convert_block_decomp]
    rcases hF : convert_block_fold (add_scope_c s (block_scope s)).2
        ⟨s.file.scopes.length⟩ stmts [] with ⟨fns, s2⟩
    have qf := convert_block_fold_queue (add_scope_c s (block_scope s)).2
      ⟨s.file.scopes.length⟩ stmts []
    simp only [hF] at qf
    rw [add_scope_c_queue] at qf
    simp only [queue_size] at qf
    simp only [hF, update_scope_queue, queue_size_append, psize_block]
    all_goals omega

theorem convert_block_fold_queue (s : CState) (si : ScopeIndex) (stmts : List PStmt)
    (fns : List RawFunction) :
    queue_size (convert_block_fold s si stmts fns).2.raw_func_queue +
      queue_size (convert_block_fold s si stmts fns).1 ≤
    queue_size s.raw_func_queue + queue_size fns + psize_stmts stmts := by
  cases stmts with
  | nil =>
    simp only [convert_block_fold, psize_stmts]
    all_goals omega
  | cons stmt rest =>
    rcases hS : convert_stmt s si stmt with ⟨ret, s1⟩
    have qs1 := convert_stmt_queue s si stmt
    simp only [hS] at qs1
    cases hv : ret.var with
    | none =>
      cases hf : ret.function with
      | none =>
        have IH := convert_block_fold_queue (update_scope s1 si
          (fun sc => { sc with scopes := sc.scopes ++ ret.scopes })) si rest fns
        rw [update_scope_queue] at IH
        rw [hf] at qs1
        simp only [fn_size] at qs1
        simp only [convert_block_fold, hS, hv, hf, psize_stmts]
        all_goals omega
      | some fn =>
        have IH := convert_block_fold_queue (update_scope s1 si
          (fun sc => { sc with scopes := sc.scopes ++ ret.scopes })) si rest (fns ++ [fn])
        rw [update_scope_queue, queue_size_append] at IH
        simp only [queue_size] at IH
        rw [hf] at qs1
        simp only [fn_size] at qs1
        simp only [convert_block_fold, hS, hv, hf, psize_stmts]
        all_goals omega
    | some p =>
      rcases p with ⟨name, index⟩
      cases hf : ret.function with
      | none =>
        have IH := convert_block_fold_queue (update_scope (update_scope s1 si
          (fun sc => { sc with vars := vars_push sc.vars name index })) si
          (fun sc => { sc with scopes := sc.scopes ++ ret.scopes })) si rest fns
        rw [update_scope_queue, update_scope_queue] at IH
        rw [hf] at qs1
        simp only [fn_size] at qs1
        simp only [convert_block_fold, hS, hv, hf, psize_stmts]
        all_goals omega
      | some fn =>
        have IH := convert_block_fold_queue (update_scope (update_scope s1 si
          (fun sc => { sc with vars := vars_push sc.vars name index })) si
          (fun sc => { sc with scopes := sc.scopes ++ ret.scopes })) si rest (fns ++ [fn])
        rw [update_scope_queue, update_scope_queue, queue_size_append] at IH
        simp only [queue_size] at IH
        rw [hf] at qs1
        simp only [fn_size] at qs1
        simp only [convert_block_fold, hS, hv, hf, psize_stmts]
        all_goals omega

end

theorem add_function_c_queue (s : CState) (fd : FunctionDef) :
    (add_function_c s fd).2.raw_func_queue = s.raw_func_queue := Eq.refl _

/-- Converting one popped function enqueues strictly less than its body's
size. -/
theorem convert_function_queue (s : CState) (func : RawFunction) :
    queue_size (convert_function s func).raw_func_queue + 1 ≤
      queue_size s.raw_func_queue + psize_block func.block := by
  rcases hB : convert_block s func.block with ⟨blk, s1⟩
  have qb := convert_block_queue s func.block
  simp only [hB] at qb
  simp only [convert_function, hB, update_scope_queue, add_function_c_queue]
  exact qb

/-- Beyond the strict bound, the drain fuel is irrelevant: every pop
strictly shrinks the total queued size, so `queue_size + 1` steps already
run the worklist loop to completion and the fuel-out branch of `drain`
is unreachable from `convert_parse_tree`. -/
theorem drain_fuel_irrel (fuel1 : Nat) (s : CState) (fuel2 : Nat)
    (h1 : queue_size s.raw_func_queue < fuel1)
    (h2 : queue_size s.raw_func_queue < fuel2) :
    drain fuel1 s = drain fuel2 s := by
  induction fuel1 generalizing s fuel2 with
  | zero => omega
  | succ f1 ih =>
    cases fuel2 with
    | zero => omega
    | succ f2 =>
      rw [drain, drain]
      cases hq : pop_queue s.raw_func_queue with
      | none => rfl
      | some p =>
        rcases p with ⟨func, rest⟩
        have hsz := pop_queue_size s.raw_func_queue func rest hq
        have hcf := convert_function_queue { s with raw_func_queue := rest } func
        rw [show ({ s with raw_func_queue := rest } : CState).raw_func_queue = rest
          from Eq.refl _] at hcf
        exact ih (convert_function { s with raw_func_queue := rest } func) f2
          (by omega) (by omega)

/-- The fuel chosen by `convert_parse_tree` saturates: any extra fuel
yields the same `File`. -/
theorem drain_fuel_saturates (s : CState) (extra : Nat) :
    drain (queue_size s.raw_func_queue + 1 + extra) s =
      drain (queue_size s.raw_func_queue + 1) s :=
  drain_fuel_irrel (queue_size s.raw_func_queue + 1 + extra) s
    (queue_size s.raw_func_queue + 1) (by omega) (by omega)
